import Mathlib

/-!
Verification of the lopdf document-processor core (`src/processor.rs`) against
its natural-language specification.

The object model, the object table, the graph-traversal passes and the stream
codec live in the upstream collaborator crate (spec §3, §4.1, §6); they are not
part of the given source file, so they are modelled from the specification and
each such definition is marked `Modelled from the spec:`.  Everything in
`impl Document` of `src/processor.rs` is translated directly from that source.

Machine integers: object numbers, generation numbers and the maximum-id
counter are Rust `u32`; they are embedded as `Nat`, with arithmetic reduced
`% 2^32` exactly where the Rust code can wrap.  Stream bytes are embedded as
`List Nat`; dictionary keys and name/string payloads are embedded as `String`
(Rust compares them bytewise; the embedding compares them as strings, which
agrees on the ASCII keys the processor uses).
-/

namespace Lopdf

/-- Identity of an indirect object: (object number, generation number),
both `u32` in the source (`ObjectId = (u32, u32)`). -/
abbrev ObjectId := Nat × Nat

/-- Encoding tag of a byte string (`StringFormat` in the source). -/
inductive StringFormat where
  | literal
  | hexadecimal
deriving DecidableEq, Repr

/-- The tagged PDF value type (`Object` in the source): absence, boolean,
integer, real, byte string, name, sequence, mapping, stream, reference.
A real number never flows through any processor operation, so its `f32`
payload is embedded as its raw bit pattern.  A stream carries its own
mapping, raw bytes and a compressibility flag (spec §3). -/
inductive Object where
  | null
  | boolean (b : Bool)
  | integer (i : Int)
  | real (bits : Nat)
  | string (s : String) (fmt : StringFormat)
  | name (n : String)
  | array (elems : List Object)
  | dictionary (entries : List (String × Object))
  | stream (dict : List (String × Object)) (content : List Nat)
      (allowsCompression : Bool)
  | reference (id : ObjectId)

/-- Simultaneous induction over the nested value type: a motive for values,
one for element lists, one for entry lists. -/
def Object.indOn
    (P : Object → Prop)
    (Q : List Object → Prop)
    (R : List (String × Object) → Prop)
    (hnull : P .null)
    (hbool : ∀ b, P (.boolean b))
    (hint : ∀ i, P (.integer i))
    (hreal : ∀ r, P (.real r))
    (hstr : ∀ s f, P (.string s f))
    (hname : ∀ n, P (.name n))
    (harr : ∀ xs, Q xs → P (.array xs))
    (hdict : ∀ es, R es → P (.dictionary es))
    (hstream : ∀ d c a, R d → P (.stream d c a))
    (href : ∀ id, P (.reference id))
    (hqnil : Q [])
    (hqcons : ∀ x xs, P x → Q xs → Q (x :: xs))
    (hrnil : R [])
    (hrcons : ∀ k v es, P v → R es → R ((k, v) :: es)) :
    ∀ o, P o := fun o =>
  Object.rec (motive_1 := P) (motive_2 := Q) (motive_3 := R)
    (motive_4 := fun e => P e.2)
    hnull hbool hint hreal hstr hname harr hdict hstream href
    hqnil hqcons hrnil (fun e es h1 h2 => by
      cases e with
      | mk k v => exact hrcons k v es h1 h2)
    (fun k v h => h) o

mutual
/-- Boolean structural equality of values (the derived `PartialEq` of the
source's value type). -/
def Object.eqb : Object → Object → Bool
  | .null, .null => true
  | .boolean a, .boolean b => a = b
  | .integer a, .integer b => a = b
  | .real a, .real b => a = b
  | .string a fa, .string b fb => a = b && fa = fb
  | .name a, .name b => a = b
  | .array xs, .array ys => Object.eqbList xs ys
  | .dictionary es, .dictionary fs => Object.eqbEntries es fs
  | .stream d c a, .stream d' c' a' => Object.eqbEntries d d' && c = c' && a = a'
  | .reference i, .reference j => i = j
  | _, _ => false

/-- `Object.eqb` on element lists. -/
def Object.eqbList : List Object → List Object → Bool
  | [], [] => true
  | x :: xs, y :: ys => Object.eqb x y && Object.eqbList xs ys
  | _, _ => false

/-- `Object.eqb` on entry lists. -/
def Object.eqbEntries : List (String × Object) → List (String × Object) → Bool
  | [], [] => true
  | e :: es, f :: fs => (e.1 = f.1 : Bool) && Object.eqb e.2 f.2 && Object.eqbEntries es fs
  | _, _ => false
end

/-- `Object.eqb` decides equality. -/
def Object.eqb_iff : ∀ a b : Object, (Object.eqb a b = true) ↔ a = b := by
  have main := Object.indOn
    (fun a => ∀ b, (Object.eqb a b = true) ↔ a = b)
    (fun xs => ∀ ys, (Object.eqbList xs ys = true) ↔ xs = ys)
    (fun es => ∀ fs, (Object.eqbEntries es fs = true) ↔ es = fs)
  apply main
  case hnull => intro b; cases b <;> simp [Object.eqb]
  case hbool => intro a b; cases b <;> simp [Object.eqb]
  case hint => intro a b; cases b <;> simp [Object.eqb]
  case hreal => intro a b; cases b <;> simp [Object.eqb]
  case hstr => intro s f b; cases b <;> simp [Object.eqb]
  case hname => intro a b; cases b <;> simp [Object.eqb]
  case harr => intro xs ih b; cases b <;> simp [Object.eqb, ih]
  case hdict => intro es ih b; cases b <;> simp [Object.eqb, ih]
  case hstream => intro d c a ih b; cases b <;> simp [Object.eqb, ih, and_assoc]
  case href => intro i b; cases b <;> simp [Object.eqb]
  case hqnil => intro ys; cases ys <;> simp [Object.eqbList]
  case hqcons => intro x xs ihx ihxs ys; cases ys <;> simp [Object.eqbList, ihx, ihxs]
  case hrnil => intro fs; cases fs <;> simp [Object.eqbEntries]
  case hrcons =>
    intro k v es ihv ihes fs
    cases fs with
    | nil => simp [Object.eqbEntries]
    | cons f fs =>
      cases f with
      | mk fk fv => simp [Object.eqbEntries, ihv, ihes, and_assoc]

instance : DecidableEq Object := fun a b =>
  decidable_of_iff _ (Object.eqb_iff a b)

/-- A name-keyed mapping: association list in insertion order, mirroring the
source's linked dictionary (spec §3: insertion order irrelevant to
correctness; lookup returns the first match). -/
abbrev Dict := List (String × Object)

/-- Dictionary lookup by key (`Dictionary::get`). -/
def dictGet (es : Dict) (k : String) : Option Object :=
  (es.find? (fun e => e.1 = k)).map (fun e => e.2)

/-- Dictionary update (`Dictionary::set`): replace the value at an existing
key in place, otherwise append the new entry. -/
def dictSet (es : Dict) (k : String) (v : Object) : Dict :=
  if es.any (fun e => e.1 = k) then
    es.map (fun e => if e.1 = k then (k, v) else e)
  else
    es ++ [(k, v)]

/-- Dictionary entry removal (`Dictionary::remove`). -/
def dictRemove (es : Dict) (k : String) : Dict :=
  es.filter (fun e => e.1 ≠ k)

/-- The object table: association list from `ObjectId` to `Object`,
mirroring the source's ordered map (`BTreeMap<ObjectId, Object>`); its keys
are unique in every state reachable through the Rust API, which theorems
carry as an explicit `Nodup` hypothesis where they need it. -/
abbrev Table := List (ObjectId × Object)

/-- Table lookup (`BTreeMap::get`). -/
def tblLookup (t : Table) (id : ObjectId) : Option Object :=
  (t.find? (fun e => e.1 = id)).map (fun e => e.2)

/-- Table removal (`BTreeMap::remove`), forgetting the removed value. -/
def tblRemove (t : Table) (id : ObjectId) : Table :=
  t.filter (fun e => e.1 ≠ id)

/-- Table insertion (`BTreeMap::insert`): overwrite the value at an existing
key, otherwise add the entry. -/
def tblInsert (t : Table) (id : ObjectId) (v : Object) : Table :=
  if t.any (fun e => e.1 = id) then
    t.map (fun e => if e.1 = id then (id, v) else e)
  else
    t ++ [(id, v)]

/-- Keys of the object table. -/
def tblKeys (t : Table) : List ObjectId := t.map (fun e => e.1)

/-- Modelled from the spec: the document type of the upstream collaborator
(spec §3, §6) — an exclusive object table keyed by identity, a trailer
mapping, and a monotonically-increasing maximum-id counter used to mint
fresh identities. -/
structure Document where
  objects : Table
  trailer : Dict
  maxId : Nat
deriving DecidableEq

/-- `2^32`, the modulus of the source's `u32` arithmetic. -/
def u32Mod : Nat := 4294967296

/-- Is this value a reference to exactly this identity
(the `Object::Reference(ref_id) => ref_id == id` match in the source)? -/
def Object.isRefTo (o : Object) (id : ObjectId) : Bool :=
  match o with
  | .reference rid => rid = id
  | _ => false

/-- `Object::as_reference`: the identity carried by a reference value. -/
def Object.asReference (o : Object) : Option ObjectId :=
  match o with
  | .reference rid => some rid
  | _ => none

/-- `Object::as_dict`: the entries of a mapping value. -/
def Object.asDict (o : Object) : Option Dict :=
  match o with
  | .dictionary es => some es
  | _ => none

/-- `Object::as_array`: the elements of a sequence value. -/
def Object.asArray (o : Object) : Option (List Object) :=
  match o with
  | .array xs => some xs
  | _ => none

/-- `Object::as_i64`: the payload of an integer value. -/
def Object.asI64 (o : Object) : Option Int :=
  match o with
  | .integer i => some i
  | _ => none

/-- Modelled from the spec: the collaborator's identity-minting operation
(spec §3, §9) — advance the maximum-id counter and mint the identity
(counter, 0).  (`Document::new_object_id` in the collaborator crate.) -/
def Document.new_object_id (doc : Document) : Document × ObjectId :=
  let m := (doc.maxId + 1) % u32Mod
  ({ doc with maxId := m }, (m, 0))

/-- Modelled from the spec: the collaborator's object-insertion operation
(spec §3, §6) — mint a fresh identity, transfer the value into the table
under it, and return the identity.  (`Document::add_object`.) -/
def Document.add_object (doc : Document) (o : Object) : Document × ObjectId :=
  let r := doc.new_object_id
  ({ r.1 with objects := tblInsert r.1.objects r.2 o }, r.2)

/-- Modelled from the spec: the collaborator's typed mapping accessor
(spec §6): the entries of the object stored under an identity, failing with
an explicit signal when the identity is absent or the stored kind differs.
(`Document::get_dictionary`.) -/
def Document.get_dictionary (doc : Document) (id : ObjectId) : Option Dict :=
  (tblLookup doc.objects id).bind Object.asDict

/- ### Graph traversal: reference collection and reachability (spec §4.1) -/

mutual
/-- All identities named by reference values anywhere inside one value's
containment structure — nested sequences, mappings and a stream's own
mapping included, without following any reference (spec §4.1). -/
def refsIn : Object → List ObjectId
  | .reference id => [id]
  | .array xs => refsInList xs
  | .dictionary es => refsInEntries es
  | .stream d _ _ => refsInEntries d
  | _ => []

/-- `refsIn` over the elements of a sequence. -/
def refsInList : List Object → List ObjectId
  | [] => []
  | x :: xs => refsIn x ++ refsInList xs

/-- `refsIn` over the entry values of a mapping. -/
def refsInEntries : List (String × Object) → List ObjectId
  | [] => []
  | e :: es => refsIn e.2 ++ refsInEntries es
end

/-- The identities directly referenced from the object stored under an
identity (empty when the identity is absent from the table). -/
def succsOf (t : Table) (id : ObjectId) : List ObjectId :=
  match tblLookup t id with
  | some o => refsIn o
  | none => []

/-- One round of reachability marking: keep every marked identity and mark
every identity directly referenced from a marked identity's object. -/
def reachStep (t : Table) (v : List ObjectId) : List ObjectId :=
  (v ++ (v.map (succsOf t)).flatten).dedup

/-- Iterated reachability marking. -/
def reachIter (t : Table) (v : List ObjectId) : Nat → List ObjectId
  | 0 => v
  | n + 1 => reachStep t (reachIter t v n)

/-- Modelled from the spec: the Reachability pass of the graph-traversal
engine (`Document::traverse_objects`'s returned reference set, spec §4.1,
§4.2) — starting from the trailer, follow every reference into its pointee
and recurse into that pointee's containment structure, cycle-safe via a
visited-identity set.  Embedded as monotone marking iterated to a fixpoint;
`reachable_iff_Reachable` below proves it computes exactly the identities
reachable from the trailer through any chain of references/containers. -/
def Document.reachableIds (doc : Document) : List ObjectId :=
  reachIter doc.objects (refsInEntries doc.trailer).dedup (doc.objects.length + 2)

/-- An identity is reachable from the trailer through a chain of
references/containers: it is referenced from the trailer mapping itself, or
referenced from the object stored under a reachable identity. -/
inductive Reachable (doc : Document) : ObjectId → Prop where
  | trailer {id : ObjectId} : id ∈ refsInEntries doc.trailer → Reachable doc id
  | step {id id' : ObjectId} {o : Object} : Reachable doc id →
      tblLookup doc.objects id = some o → id' ∈ refsIn o → Reachable doc id'

/- ### Object deletion (`Document::delete_object`, src lines 84-111) -/

mutual
/-- The scrub of `delete_object` fused with the Rewrite pass (spec §4.1,
§4.3): at every mapping node delete every entry whose value is a reference
equal to the target, at every sequence node delete the first element that
is such a reference, then recurse into the remaining children (the source
applies the action at a node before descending into its children). -/
def scrubObject (id : ObjectId) : Object → Object
  | .array xs => .array (scrubElems id xs)
  | .dictionary es => .dictionary (scrubEntries id es)
  | .stream d c a => .stream (scrubStreamEntries id d) c a
  | o => o

/-- Sequence scrub: remove the first element that is a reference to the
target (the `position` / `remove` pair in the source), recurse into every
remaining element. -/
def scrubElems (id : ObjectId) : List Object → List Object
  | [] => []
  | x :: xs =>
    if x.isRefTo id then scrubTail id xs
    else scrubObject id x :: scrubElems id xs

/-- Sequence scrub after the removal already happened: recurse into every
remaining element, removing nothing more at this level. -/
def scrubTail (id : ObjectId) : List Object → List Object
  | [] => []
  | x :: xs => scrubObject id x :: scrubTail id xs

/-- Mapping scrub: remove every entry whose value is a reference to the
target (the collected-keys loop in the source), recurse into the remaining
entry values. -/
def scrubEntries (id : ObjectId) : List (String × Object) → List (String × Object)
  | [] => []
  | e :: es =>
    if e.2.isRefTo id then scrubEntries id es
    else (e.1, scrubObject id e.2) :: scrubEntries id es

/-- A stream's own mapping is not itself a value node, so the delete action
(which pattern-matches on sequence/mapping values) never deletes its
entries; the traversal still descends into each entry value. -/
def scrubStreamEntries (id : ObjectId) : List (String × Object) → List (String × Object)
  | [] => []
  | e :: es => (e.1, scrubObject id e.2) :: scrubStreamEntries id es
end

/-- `Document::delete_object` (src 84-111): scrub every inbound reference
out of container values everywhere (all table objects, and the trailer
mapping itself — spec §4.1), then take the object out of the table,
returning the removed value or an absence signal. -/
def Document.delete_object (doc : Document) (id : ObjectId) :
    Document × Option Object :=
  let objs := doc.objects.map (fun e => (e.1, scrubObject id e.2))
  let tr := scrubEntries id doc.trailer
  let removed := tblLookup objs id
  ({ doc with objects := tblRemove objs id, trailer := tr }, removed)

/- ### Garbage collection (`Document::prune_objects`, src lines 67-81) -/

/-- `Document::prune_objects` (src 67-81): collect every table identity
absent from the trailer-reachable set, remove each of them, and return the
collected identities. -/
def Document.prune_objects (doc : Document) : Document × List ObjectId :=
  let refs := doc.reachableIds
  let ids := (tblKeys doc.objects).filter (fun id => ¬ id ∈ refs)
  (({ doc with objects := ids.foldl (fun t i => tblRemove t i) doc.objects }), ids)

/- ### Renumbering (`Document::renumber_objects_with`, src lines 142-181) -/

/-- Ascending order on identities: lexicographic on (number, generation),
the derived `Ord` of the source's identity pair. -/
def idLe (a b : ObjectId) : Bool :=
  a.1 < b.1 || (a.1 = b.1 && a.2 ≤ b.2)

/-- Ordered insertion for `sortIds`. -/
def insertId (x : ObjectId) : List ObjectId → List ObjectId
  | [] => [x]
  | y :: ys => if idLe x y then x :: y :: ys else y :: insertId x ys

/-- `Vec::sort` on identities (ascending by (number, generation)). -/
def sortIds : List ObjectId → List ObjectId
  | [] => []
  | x :: xs => insertId x (sortIds xs)

/-- Ordered insertion for `sortHeld`. -/
def insertHeld (x : ObjectId × Object) :
    List (ObjectId × Object) → List (ObjectId × Object)
  | [] => [x]
  | y :: ys => if idLe x.1 y.1 then x :: y :: ys else y :: insertHeld x ys

/-- The holding area of the relocation is an ordered map keyed by the new
identity; sorting the held entries models its key-ordered iteration. -/
def sortHeld : List (ObjectId × Object) → List (ObjectId × Object)
  | [] => []
  | x :: xs => insertHeld x (sortHeld xs)

/-- The sorting order as a relation: ascending lexicographic on
(number, generation). -/
def idLeR (a b : ObjectId) : Prop := idLe a b = true

instance : IsAntisymm ObjectId idLeR :=
  ⟨by
    intro a b h1 h2
    unfold idLeR idLe at h1 h2
    simp only [Bool.or_eq_true, decide_eq_true_eq, Bool.and_eq_true] at h1 h2
    rcases a with ⟨a1, a2⟩
    rcases b with ⟨b1, b2⟩
    simp only at h1 h2
    have : a1 = b1 ∧ a2 = b2 := by omega
    rw [this.1, this.2]⟩

/-- The substitution-building loop (src 148-154): walk the sorted identities
assigning sequential numbers from the start value (`u32` increments), record
a substitution for every identity whose number differs from the assigned
one; returns the substitution list (in walk order, = ascending source
order) and the final counter value. -/
def buildReplace (ids : List ObjectId) (startingId : Nat) :
    List (ObjectId × ObjectId) × Nat :=
  ids.foldl
    (fun acc id =>
      (if id.1 ≠ acc.2 then acc.1 ++ [(id, (acc.2, id.2))] else acc.1,
       (acc.2 + 1) % u32Mod))
    ([], startingId)

/-- Substitution lookup (`replace.contains_key` / `replace[id]`). -/
def repLookup (rep : List (ObjectId × ObjectId)) (id : ObjectId) :
    Option ObjectId :=
  (rep.find? (fun e => e.1 = id)).map (fun e => e.2)

/-- The reference-rewriting action of the Rewrite pass (src 170-176):
replace a reference matching a substitution key by its target, leave every
other reference unchanged. -/
def applyRep (rep : List (ObjectId × ObjectId)) (id : ObjectId) : ObjectId :=
  (repLookup rep id).getD id

mutual
/-- The renumbering action fused with the Rewrite pass (spec §4.1, §4.5):
rewrite every reference value at every containment depth — sequence
elements, mapping entries, a stream's own mapping — through the
substitution, never following a reference into its pointee. -/
def renumObject (rep : List (ObjectId × ObjectId)) : Object → Object
  | .reference id => .reference (applyRep rep id)
  | .array xs => .array (renumList rep xs)
  | .dictionary es => .dictionary (renumEntries rep es)
  | .stream d c a => .stream (renumEntries rep d) c a
  | o => o

/-- `renumObject` over sequence elements. -/
def renumList (rep : List (ObjectId × ObjectId)) : List Object → List Object
  | [] => []
  | x :: xs => renumObject rep x :: renumList rep xs

/-- `renumObject` over mapping entries. -/
def renumEntries (rep : List (ObjectId × ObjectId)) :
    List (String × Object) → List (String × Object)
  | [] => []
  | e :: es => (e.1, renumObject rep e.2) :: renumEntries rep es
end

/-- Reference implementation of the substitution-building loop without the
(never-reached under the no-overflow bound) `u32` wrap:
`buildReplace_fst` proves it equal to the source loop's substitution when
`startingId + ids.length ≤ 2^32`. -/
def repOf (ids : List ObjectId) (s : Nat) : List (ObjectId × ObjectId) :=
  match ids with
  | [] => []
  | id :: rest =>
    (if id.1 ≠ s then [(id, (s, id.2))] else []) ++ repOf rest (s + 1)

/-- The removal half of the two-phase relocation (src 158-163): walk the
substitution in ascending source order, take each source entry out of the
table, and collect the held values under their target identities. -/
def removePhase : List (ObjectId × ObjectId) → Table → Table × Table
  | [], tbl => (tbl, [])
  | (old, nw) :: rest, tbl =>
    match tblLookup tbl old with
    | some o =>
      let r := removePhase rest (tblRemove tbl old)
      (r.1, (nw, o) :: r.2)
    | none => removePhase rest tbl

/-- `Document::renumber_objects_with` (src 142-181): sort the identities,
build the substitution and the sequential counter, relocate the table
entries in two phases through the holding area, rewrite every reference in
every object and in the trailer through the substitution, and set the
maximum-id counter to `new_id - 1` (a `u32` subtraction). -/
def Document.renumber_objects_with (doc : Document) (startingId : Nat) :
    Document :=
  let ids := sortIds (tblKeys doc.objects)
  let br := buildReplace ids startingId
  let rep := br.1
  let rm := removePhase rep doc.objects
  let relocated := (sortHeld rm.2).foldl (fun t e => tblInsert t e.1 e.2) rm.1
  { objects := relocated.map (fun e => (e.1, renumObject rep e.2)),
    trailer := renumEntries rep doc.trailer,
    maxId := (br.2 + (u32Mod - 1)) % u32Mod }

/-- `Document::renumber_objects` (src 136-138): renumber starting at 1. -/
def Document.renumber_objects (doc : Document) : Document :=
  doc.renumber_objects_with 1

/-- The substitution `renumber_objects_with` builds for a document (its
`replace` map, as the overflow-free reference list `repOf`). -/
def renumRep (doc : Document) (s : Nat) : List (ObjectId × ObjectId) :=
  repOf (sortIds (tblKeys doc.objects)) s

/-- The total identity substitution of a renumbering: the replacement when
one is recorded, the identity itself otherwise. -/
def renumPhi (doc : Document) (s : Nat) (id : ObjectId) : ObjectId :=
  applyRep (renumRep doc s) id

/-- Every identity named by a reference value anywhere in the document (in
any table object, or in the trailer at any depth). -/
def docRefs (doc : Document) : List ObjectId :=
  refsInEntries doc.trailer ++ (doc.objects.map (fun e => refsIn e.2)).flatten

/-- Does every reference value in the document resolve to an identity
present in the object table? -/
def docResolves (doc : Document) : Bool :=
  (docRefs doc).all (fun id => (tblKeys doc.objects).contains id)

/-- The (content, generation) pairs of the table entries reachable from the
trailer, in table order. -/
def reachTablePairs (doc : Document) : List (Object × Nat) :=
  (doc.objects.filter (fun e => e.1 ∈ doc.reachableIds)).map
    (fun e => (e.2, e.1.2))

/- ### Stream codec (spec §4.6, collaborator interface §6) -/

/-- Modelled from the spec: the configured content filter of the external
stream type (spec §4.6, §6).  The concrete codec is out of scope; it is
embedded as an injective placeholder encoding with an exact inverse, which
no claim's statement depends on. -/
def flateEncode (bs : List Nat) : List Nat := bs.length :: bs

/-- Modelled from the spec: inverse of the placeholder content filter. -/
def flateDecode (bs : List Nat) : List Nat := bs.tail

/-- Modelled from the spec: `Stream::compress` of the collaborator stream
type (spec §4.6, §6) — if the stream is not already filter-encoded, apply
the content filter to its bytes, record the filter and update the declared
size metadata; report failure otherwise. -/
def streamCompress (d : Dict) (c : List Nat) : Option (Dict × List Nat) :=
  match dictGet d "Filter" with
  | none =>
    some (dictSet (dictSet d "Filter" (.name "FlateDecode")) "Length"
            (.integer (flateEncode c).length),
          flateEncode c)
  | some _ => none

/-- Modelled from the spec: `Stream::decompress` — reverse the content
filter when the recorded filter is the supported one, otherwise leave the
stream unchanged. -/
def streamDecompress (d : Dict) (c : List Nat) : Dict × List Nat :=
  match dictGet d "Filter" with
  | some (.name "FlateDecode") =>
    (dictSet (dictRemove d "Filter") "Length" (.integer (flateDecode c).length),
     flateDecode c)
  | _ => (d, c)

/-- Modelled from the spec: `Stream::decompressed_content` — the decoded
bytes, failing when the recorded filter is unsupported or absent. -/
def decompressedContent (d : Dict) (c : List Nat) : Option (List Nat) :=
  match dictGet d "Filter" with
  | some (.name "FlateDecode") => some (flateDecode c)
  | _ => none

/-- Modelled from the spec: `Stream::set_plain_content` (spec §4.7 — sets
new raw bytes and discards prior encoding state). -/
def setPlainContent (d : Dict) (c : List Nat) : Dict × List Nat :=
  (dictSet (dictRemove d "Filter") "Length" (.integer c.length), c)

/-- Modelled from the spec: `Stream::new` of the collaborator stream type —
a fresh stream from a mapping and raw bytes, carrying its size metadata,
compression allowed. -/
def streamNew (d : Dict) (c : List Nat) : Object :=
  .stream (dictSet d "Length" (.integer c.length)) c true

/-- `Document::compress` (src 23-32): for every stream object flagged
compressible, apply the content filter; a per-object failure is ignored and
the bulk pass continues. -/
def Document.compress (doc : Document) : Document :=
  { doc with objects := doc.objects.map (fun e =>
      match e.2 with
      | .stream d c a =>
        if a then
          match streamCompress d c with
          | some dc => (e.1, Object.stream dc.1 dc.2 a)
          | none => (e.1, e.2)
        else (e.1, e.2)
      | _ => (e.1, e.2)) }

/-- `Document::decompress` (src 35-41): reverse the content filter on every
stream object. -/
def Document.decompress (doc : Document) : Document :=
  { doc with objects := doc.objects.map (fun e =>
      match e.2 with
      | .stream d c a =>
        let r := streamDecompress d c
        (e.1, Object.stream r.1 r.2 a)
      | _ => (e.1, e.2)) }

/-- `Document::change_producer` (src 10-20): set the Producer entry of the
information dictionary, reached directly or through one reference; silently
no-op when the entry is missing or of the wrong kind. -/
def Document.change_producer (doc : Document) (producer : String) : Document :=
  match dictGet doc.trailer "Info" with
  | some (.dictionary es) =>
    let v := Object.dictionary (dictSet es "Producer" (.string producer .literal))
    { doc with trailer := dictSet doc.trailer "Info" v }
  | some (.reference id) =>
    match tblLookup doc.objects id with
    | some (.dictionary es) =>
      let v := Object.dictionary (dictSet es "Producer" (.string producer .literal))
      { doc with objects := tblInsert doc.objects id v }
    | _ => doc
  | _ => doc

/-- `Document::delete_zero_length_streams` (src 114-133): collect the
identities of empty-content stream objects, delete each through
`delete_object`, return the collected identities. -/
def Document.delete_zero_length_streams (doc : Document) :
    Document × List ObjectId :=
  let ids := (tblKeys doc.objects).filter (fun id =>
    match tblLookup doc.objects id with
    | some (.stream _ c _) => c.isEmpty
    | _ => false)
  (ids.foldl (fun d i => (d.delete_object i).1) doc, ids)

/- ### Content stream replacement (src lines 183-214) -/

/-- `Document::change_content_stream` (src 183-191): when the identity names
a stream object, set the given bytes as its plain content and attempt
recompression, ignoring a compression failure; otherwise do nothing. -/
def Document.change_content_stream (doc : Document) (sid : ObjectId)
    (content : List Nat) : Document :=
  match tblLookup doc.objects sid with
  | some (.stream d _ a) =>
    let p := setPlainContent d content
    let res :=
      match streamCompress p.1 p.2 with
      | some dc => Object.stream dc.1 dc.2 a
      | none => Object.stream p.1 p.2 a
    { doc with objects := tblInsert doc.objects sid res }
  | _ => doc

/-- Failure signals surfaced by the fallible processor operations. -/
inductive PdfErr where
  | objectNotFound
  | typeMismatch
  | missingEntry
  | ioError (path : String)
deriving DecidableEq, Repr

/-- `Document::change_page_content` (src 193-214): resolve the page's
Contents entry (failing hard when the page or the entry is missing); on a
direct reference or a one-element sequence holding a reference, replace
that stream's content in place; on a sequence of any other length, allocate
a brand-new stream holding the given bytes and repoint the page's Contents
at it; in every remaining case change nothing. -/
def Document.change_page_content (doc : Document) (pageId : ObjectId)
    (content : List Nat) : Document × Option PdfErr :=
  match tblLookup doc.objects pageId with
  | none => (doc, some .objectNotFound)
  | some po =>
    match po.asDict with
    | none => (doc, some .typeMismatch)
    | some page =>
      match dictGet page "Contents" with
      | none => (doc, some .missingEntry)
      | some (.reference cid) => (doc.change_content_stream cid content, none)
      | some (.array [x]) =>
        match x.asReference with
        | some cid => (doc.change_content_stream cid content, none)
        | none => (doc, none)
      | some (.array _) =>
        let r := doc.add_object (streamNew [] content)
        let doc1 := r.1
        (match tblLookup doc1.objects pageId with
         | some (.dictionary es) =>
           let v := Object.dictionary (dictSet es "Contents" (.reference r.2))
           { doc1 with objects := tblInsert doc1.objects pageId v }
         | _ => doc1,
         none)
      | some _ => (doc, none)

/- ### Page deletion (src lines 44-64) -/

/-- Modelled from the spec: the `Type` name of the mapping stored under an
identity, used by the page-number index builder. -/
def typeNameOf (doc : Document) (id : ObjectId) : Option String :=
  match doc.get_dictionary id with
  | some es =>
    match dictGet es "Type" with
    | some (.name n) => some n
    | _ => none
  | none => none

/-- Modelled from the spec: one node of the page-tree walk behind
`Document::get_pages` (spec §4.4: "a page-number index built once from the
page tree") — walk the node's Kids in order: recurse into a child of Type
Pages, assign the next 1-based page number to a child of Type Page, skip
anything else.  The fuel bounds the descent depth; the caller passes more
fuel than any acyclic tree can use. -/
def collectPages (doc : Document) : Nat → ObjectId → Nat × List (Nat × ObjectId) →
    Nat × List (Nat × ObjectId)
  | 0, _, acc => acc
  | fuel + 1, nodeId, acc =>
    match doc.get_dictionary nodeId with
    | some es =>
      match dictGet es "Kids" with
      | some (.array kids) =>
        kids.foldl (fun acc kid =>
          match kid.asReference with
          | some kidId =>
            match typeNameOf doc kidId with
            | some "Pages" => collectPages doc fuel kidId acc
            | some "Page" => (acc.1 + 1, acc.2 ++ [(acc.1, kidId)])
            | _ => acc
          | none => acc) acc
      | _ => acc
    | none => acc

/-- Modelled from the spec: `Document::get_pages` (spec §4.4) — the 1-based
page-number index, built by walking the catalog's page tree. -/
def Document.get_pages (doc : Document) : List (Nat × ObjectId) :=
  match dictGet doc.trailer "Root" with
  | some (.reference rid) =>
    match doc.get_dictionary rid with
    | some cat =>
      match dictGet cat "Pages" with
      | some (.reference pid) =>
        (collectPages doc (doc.objects.length + 1) pid (1, [])).2
      | _ => []
    | none => []
  | _ => []

/-- The ancestor-chain walk of `delete_pages` (src 52-61): while the current
parent reference resolves, decrement the node's integer Count (when it has
one), then follow the node's own Parent reference; stop when a node is not
present as a mapping or when the parent reference is absent.  The fuel
bounds the walk; every terminating source walk visits pairwise-distinct
nodes, so more fuel than the table has entries is enough. -/
def countWalk (doc : Document) : Nat → Option ObjectId → Document
  | 0, _ => doc
  | _, none => doc
  | fuel + 1, some ptId =>
    match tblLookup doc.objects ptId with
    | some (.dictionary es) =>
      let es1 :=
        match dictGet es "Count" with
        | some (.integer c) => dictSet es "Count" (.integer (c - 1))
        | _ => es
      let doc' := { doc with objects := tblInsert doc.objects ptId (.dictionary es1) }
      countWalk doc' fuel ((dictGet es1 "Parent").bind Object.asReference)
    | _ => doc

/-- `Document::delete_pages` (src 44-64): build the page-number index once,
then for each requested 1-based index — skipping silently any index absent
from the pre-built index — delete the leaf through `delete_object` and,
when the leaf was present, walk the chain of former Parent references
decrementing each ancestor's integer Count by one. -/
def Document.delete_pages (doc : Document) (pageNumbers : List Nat) : Document :=
  let pages := doc.get_pages
  pageNumbers.foldl
    (fun d pn =>
      match (pages.find? (fun e => e.1 = pn)).map (fun e => e.2) with
      | none => d
      | some pid =>
        let r := d.delete_object pid
        match r.2 with
        | none => r.1
        | some page =>
          countWalk r.1 (r.1.objects.length + 1)
            (((page.asDict.bind (fun es => dictGet es "Parent")).bind
               Object.asReference)))
    doc

/- ### Stream extraction (src lines 216-239) -/

/-- Outcome of `extract_stream_to_path`: either the create/write failed with
an I/O error, or the operation succeeded and the file at the output path
holds exactly these bytes. -/
inductive ExtractResult where
  | ioError
  | written (fileBytes : List Nat)
deriving DecidableEq, Repr

/-- `Document::extract_stream_to_path` (src 216-234): create (or truncate)
the file at the output path first — `createOk` models whether that create
succeeds; a failure propagates before the stream is ever looked up — then,
only when the identity names a stream object, write its (optionally
decoded, falling back to raw on decode failure) bytes; in every other case
write nothing and report success, leaving the empty file. -/
def Document.extract_stream_to_path (doc : Document) (sid : ObjectId)
    (dec : Bool) (createOk : Bool) : ExtractResult :=
  if createOk = false then .ioError
  else
    match tblLookup doc.objects sid with
    | some (.stream d c _) =>
      if dec then
        match decompressedContent d c with
        | some data => .written data
        | none => .written c
      else .written c
    | _ => .written []

/- ### Attachments (src lines 241-357) -/

/-- Outcome of an operation that may panic: the source reaches an
`unwrap()` on a failed step (process termination), or completes with a
value. -/
inductive PanicOr (α : Type) where
  | panicked
  | completed (a : α)
deriving DecidableEq, Repr

/-- Modelled from the spec: the collaborator's catalog accessor (spec §6;
glossary: the document's root mapping, reachable from the trailer).  The
trailer's Root entry may hold the catalog mapping directly or by reference
— the processor itself writes the catalog back into the trailer by value
(src 355). -/
def Document.catalogOf (doc : Document) : Option Dict :=
  match dictGet doc.trailer "Root" with
  | some (.dictionary es) => some es
  | some (.reference id) => doc.get_dictionary id
  | _ => none

/-- `Document::list_attachments` (src 241-278): `catalog().unwrap()` —
panicking when the catalog does not resolve — then follow the chain
Names → EmbeddedFiles → Names defensively (each hop a direct value or a
reference), and report every literal string entry of the flat name
sequence; any failed hop silently reports nothing. -/
def Document.list_attachments (doc : Document) : PanicOr (List String) :=
  match doc.catalogOf with
  | none => .panicked
  | some cat =>
    match dictGet cat "Names" with
    | none => .completed []
    | some names =>
      match (match names with
             | .dictionary es => some es
             | .reference id => doc.get_dictionary id
             | _ => none) with
      | none => .completed []
      | some nd =>
        match dictGet nd "EmbeddedFiles" with
        | none => .completed []
        | some ef =>
          match (match ef with
                 | .dictionary es => some es
                 | .reference id => doc.get_dictionary id
                 | _ => none) with
          | none => .completed []
          | some efd =>
            match dictGet efd "Names" with
            | none => .completed []
            | some nt =>
              match (match nt with
                     | .array a => some a
                     | .reference id => (tblLookup doc.objects id).bind Object.asArray
                     | _ => none) with
              | none => .completed []
              | some arr =>
                .completed (arr.filterMap (fun it =>
                  match it with
                  | .string s _ => some s
                  | _ => none))

/-- Modelled from the spec: the base-name accessor of the external path type
(`Path::file_name`): the final path component, absent for an empty path, a
root path, or a path ending in a current/parent-directory component.
`splitSlash` splits the raw character list on the path separator. -/
def splitSlash : List Char → List (List Char)
  | [] => [[]]
  | c :: cs =>
    let r := splitSlash cs
    if c = '/' then [] :: r
    else
      match r with
      | [] => [[c]]
      | g :: gs => (c :: g) :: gs

/-- The component list of the path, split on the separator. -/
def pathComponents (path : String) : List String :=
  (splitSlash path.toList).map (fun cs => String.mk cs)

def baseName (path : String) : Option String :=
  match ((pathComponents path).filter (fun c => c ≠ "")).getLast? with
  | none => none
  | some c => if c = ".." ∨ c = "." then none else some c

/-- Outcome of `add_attachment`: a reached `unwrap()` on a failed step
(process termination), a surfaced failure together with the document state
already mutated before the failing step, or success with the final
document. -/
inductive AAOut where
  | panicked
  | failed (e : PdfErr) (doc : Document)
  | completed (doc : Document)
deriving DecidableEq

/-- `Document::add_attachment` (src 280-357): resolve the catalog
(`unwrap()`: panic on failure); ensure the Names / EmbeddedFiles / Names
chain exists, minting a fresh mapping and an empty sequence object on first
use; resolve the flat name sequence; append the file's base name
(`file_name().unwrap()`: panic when the path has none); read the source
file's bytes (`fs` models the file system; a read failure surfaces the I/O
error with every mutation made so far kept); build the content stream
(DL / Params Size metadata), compress it (`unwrap()`), mint the EF and
filespec mappings, append the filespec reference; write each modified
structure back into its parent by value up through the catalog and the
trailer. -/
def Document.add_attachment (doc0 : Document) (pathToFile : String)
    (fs : String → Option (List Nat)) : AAOut := Id.run do
  let mut doc := doc0
  let some origCatalog := doc.catalogOf | return .panicked
  let mut catalog := origCatalog
  let mut names : Object := .null
  match dictGet catalog "Names" with
  | some n => names := n
  | none =>
    let r1 := doc.new_object_id
    doc := r1.1
    let namesTreeId := r1.2
    let r2 := doc.add_object (.dictionary
      [("EmbeddedFiles", .dictionary [("Names", .reference namesTreeId)])])
    doc := r2.1
    doc := { doc with objects := tblInsert doc.objects namesTreeId (.array []) }
    let some got := tblLookup doc.objects r2.2
      | return .failed .objectNotFound doc
    names := got
  let some namesDict := names.asDict | return .failed .typeMismatch doc
  let mut efDict : Object := .null
  match dictGet namesDict "EmbeddedFiles" with
  | some ef => efDict := ef
  | none =>
    let r1 := doc.new_object_id
    doc := r1.1
    let namesTreeId := r1.2
    let r2 := doc.add_object (.dictionary [("Names", .reference namesTreeId)])
    doc := r2.1
    doc := { doc with objects := tblInsert doc.objects namesTreeId (.array []) }
    names := .dictionary (dictSet namesDict "EmbeddedFiles" (.reference r2.2))
    let some got := tblLookup doc.objects r2.2
      | return .failed .objectNotFound doc
    efDict := got
  let some efEntries := efDict.asDict | return .failed .typeMismatch doc
  match dictGet efEntries "Names" with
  | none => pure ()
  | some namesTree =>
    let nameArr? : Option (List Object) :=
      match namesTree with
      | .array arr => some arr
      | .reference id => (tblLookup doc.objects id).bind Object.asArray
      | _ => none
    match nameArr? with
    | none => pure ()
    | some nameArr =>
      let some fileName := baseName pathToFile | return .panicked
      let newNames0 := nameArr ++ [.string fileName .literal]
      let some buffer := fs pathToFile
        | return .failed (.ioError pathToFile) doc
      let fsDict : Dict :=
        [("DL", .integer buffer.length),
         ("Params", .dictionary [("Size", .integer buffer.length)])]
      let fsObj := streamNew fsDict buffer
      let some comp := (match fsObj with
                        | .stream d c _ => streamCompress d c
                        | _ => none)
        | return .panicked
      let r3 := doc.add_object (.stream comp.1 comp.2 true)
      doc := r3.1
      let fileStreamId := r3.2
      let r4 := doc.add_object (.dictionary [("F", .reference fileStreamId)])
      doc := r4.1
      let efId := r4.2
      let r5 := doc.add_object (.dictionary
        [("Type", .name "Filespec"),
         ("F", .string fileName .literal),
         ("EF", .reference efId)])
      doc := r5.1
      let newNames := newNames0 ++ [.reference r5.2]
      efDict := .dictionary (dictSet efEntries "Names" (.array newNames))
      let some nd2 := names.asDict | return .failed .typeMismatch doc
      names := .dictionary (dictSet nd2 "EmbeddedFiles" efDict)
  catalog := dictSet catalog "Names" names
  doc := { doc with trailer := dictSet doc.trailer "Root" (.dictionary catalog) }
  return .completed doc

mutual
/-- No mapping value node anywhere inside this value (a stream's own
top-level mapping excepted, since the delete action pattern-matches on
value nodes and a stream's mapping is not one) carries an entry whose value
is a reference to the given identity. -/
def noDictRef (id : ObjectId) : Object → Bool
  | .array xs => noDictRefList id xs
  | .dictionary es => es.all (fun e => !(e.2.isRefTo id)) && noDictRefEntries id es
  | .stream d _ _ => noDictRefEntries id d
  | _ => true

/-- `noDictRef` over sequence elements. -/
def noDictRefList (id : ObjectId) : List Object → Bool
  | [] => true
  | x :: xs => noDictRef id x && noDictRefList id xs

/-- `noDictRef` over mapping entry values. -/
def noDictRefEntries (id : ObjectId) : List (String × Object) → Bool
  | [] => true
  | e :: es => noDictRef id e.2 && noDictRefEntries id es
end

/-- The claim's global scrub postcondition on the whole document: no
mapping node's entry and no trailer entry is a reference to the identity,
and every object is clean. -/
def docNoDictRef (id : ObjectId) (doc : Document) : Bool :=
  doc.trailer.all (fun e => !(e.2.isRefTo id)) &&
  noDictRefEntries id doc.trailer &&
  doc.objects.all (fun e => noDictRef id e.2)

mutual
/-- The literal reading of the deletion-safety claim on one value: no
sequence element and no mapping entry (a stream's own mapping included)
anywhere inside is a reference to the given identity. -/
def refClean (id : ObjectId) : Object → Bool
  | .array xs => xs.all (fun x => !(x.isRefTo id)) && refCleanList id xs
  | .dictionary es => es.all (fun e => !(e.2.isRefTo id)) && refCleanEntries id es
  | .stream d _ _ => d.all (fun e => !(e.2.isRefTo id)) && refCleanEntries id d
  | _ => true

/-- `refClean` over sequence elements. -/
def refCleanList (id : ObjectId) : List Object → Bool
  | [] => true
  | x :: xs => refClean id x && refCleanList id xs

/-- `refClean` over mapping entry values. -/
def refCleanEntries (id : ObjectId) : List (String × Object) → Bool
  | [] => true
  | e :: es => refClean id e.2 && refCleanEntries id es
end

/-- The literal reading of the deletion-safety claim on a document: no
sequence element and no mapping entry anywhere (any table object or the
trailer) is a reference to the identity. -/
def docRefClean (id : ObjectId) (doc : Document) : Bool :=
  doc.trailer.all (fun e => !(e.2.isRefTo id)) &&
  refCleanEntries id doc.trailer &&
  doc.objects.all (fun e => refClean id e.2)

/-- Number of direct elements of a sequence that are references to the
identity. -/
def countTopRefs (id : ObjectId) (xs : List Object) : Nat :=
  (xs.filter (fun x => x.isRefTo id)).length

/-- Does the identity name a stream object in the table? -/
def lookupIsStream (t : Table) (id : ObjectId) : Bool :=
  match tblLookup t id with
  | some (.stream _ _ _) => true
  | _ => false


/-! ## Basic lemmas about the table and dictionary operations -/

theorem tblLookup_nil (k : ObjectId) : tblLookup [] k = none := rfl

theorem tblLookup_cons (e : ObjectId × Object) (t : Table) (k : ObjectId) :
    tblLookup (e :: t) k = if e.1 = k then some e.2 else tblLookup t k := by
  by_cases h : e.1 = k <;> simp [tblLookup, List.find?_cons, h]

theorem tblRemove_cons (e : ObjectId × Object) (t : Table) (id : ObjectId) :
    tblRemove (e :: t) id
      = if e.1 = id then tblRemove t id else e :: tblRemove t id := by
  by_cases h : e.1 = id <;> simp [tblRemove, List.filter_cons, h]

theorem tblLookup_remove_self (t : Table) (id : ObjectId) :
    tblLookup (tblRemove t id) id = none := by
  induction t with
  | nil => rfl
  | cons e t ih =>
    rw [tblRemove_cons]
    by_cases h : e.1 = id
    · rw [if_pos h]; exact ih
    · rw [if_neg h, tblLookup_cons, if_neg h]; exact ih

theorem tblLookup_remove_other (t : Table) (id k : ObjectId) (hne : k ≠ id) :
    tblLookup (tblRemove t id) k = tblLookup t k := by
  induction t with
  | nil => rfl
  | cons e t ih =>
    rw [tblRemove_cons]
    by_cases h : e.1 = id
    · have hk : ¬ e.1 = k := fun hc => hne (by rw [← hc, h])
      rw [if_pos h, tblLookup_cons, if_neg hk]; exact ih
    · rw [if_neg h, tblLookup_cons, tblLookup_cons, ih]

/-! ## Properties of the delete-object scrub (claim C1) -/

/-- The scrub never changes whether a value is a reference to the target. -/
theorem scrub_isRefTo (id : ObjectId) (o : Object) :
    (scrubObject id o).isRefTo id = o.isRefTo id := by
  cases o <;> simp [scrubObject, Object.isRefTo]

/-- The scrub establishes `noDictRef` everywhere (mutual statement). -/
theorem scrub_noDictRef (id : ObjectId) :
    ∀ o, noDictRef id (scrubObject id o) = true := by
  have main := Object.indOn
    (fun o => noDictRef id (scrubObject id o) = true)
    (fun xs => noDictRefList id (scrubElems id xs) = true ∧
               noDictRefList id (scrubTail id xs) = true)
    (fun es => noDictRefEntries id (scrubEntries id es) = true ∧
               (scrubEntries id es).all (fun e => !(e.2.isRefTo id)) = true ∧
               noDictRefEntries id (scrubStreamEntries id es) = true)
  apply main
  case hnull => simp [scrubObject, noDictRef]
  case hbool => intro b; simp [scrubObject, noDictRef]
  case hint => intro i; simp [scrubObject, noDictRef]
  case hreal => intro r; simp [scrubObject, noDictRef]
  case hstr => intro s f; simp [scrubObject, noDictRef]
  case hname => intro n; simp [scrubObject, noDictRef]
  case harr => intro xs ih; simpa [scrubObject, noDictRef] using ih.1
  case hdict =>
    intro es ih
    simp [scrubObject, noDictRef, ih.1, ih.2.1]
  case hstream => intro d c a ih; simpa [scrubObject, noDictRef] using ih.2.2
  case href => intro i; simp [scrubObject, noDictRef]
  case hqnil => constructor <;> rfl
  case hqcons =>
    intro x xs ihx ihxs
    constructor
    · by_cases h : x.isRefTo id
      · simpa [scrubElems, h] using ihxs.2
      · simp [scrubElems, h, noDictRefList, ihx, ihxs.1]
    · simp [scrubTail, noDictRefList, ihx, ihxs.2]
  case hrnil => refine ⟨rfl, rfl, rfl⟩
  case hrcons =>
    intro k v es ihv ihes
    refine ⟨?_, ?_, ?_⟩
    · by_cases h : v.isRefTo id
      · simpa [scrubEntries, h] using ihes.1
      · simp [scrubEntries, h, noDictRefEntries, ihv, ihes.1]
    · by_cases h : v.isRefTo id
      · simpa [scrubEntries, h] using ihes.2.1
      · simp [scrubEntries, h, scrub_isRefTo, h, ihes.2.1]
    · simp [scrubStreamEntries, noDictRefEntries, ihv, ihes.2.2]

/-- The scrub of a mapping leaves no direct reference-to-target entry and
establishes `noDictRef` in every remaining entry value. -/
theorem scrubEntries_clean (id : ObjectId) (es : List (String × Object)) :
    (scrubEntries id es).all (fun e => !(e.2.isRefTo id)) = true ∧
    noDictRefEntries id (scrubEntries id es) = true := by
  induction es with
  | nil => exact ⟨rfl, rfl⟩
  | cons e es ih =>
    constructor
    · by_cases h : e.2.isRefTo id
      · simpa [scrubEntries, h] using ih.1
      · simp [scrubEntries, h, scrub_isRefTo, ih.1]
    · by_cases h : e.2.isRefTo id
      · simpa [scrubEntries, h] using ih.2
      · simp [scrubEntries, h, noDictRefEntries, scrub_noDictRef, ih.2]

/-- `scrubTail` preserves the direct reference count of a sequence. -/
theorem countTopRefs_scrubTail (id : ObjectId) (xs : List Object) :
    countTopRefs id (scrubTail id xs) = countTopRefs id xs := by
  induction xs with
  | nil => rfl
  | cons x xs ih =>
    by_cases h : x.isRefTo id
    · simp [scrubTail, countTopRefs, List.filter, scrub_isRefTo, h] at ih ⊢
      simpa [countTopRefs] using ih
    · simp [scrubTail, countTopRefs, List.filter, scrub_isRefTo, h] at ih ⊢
      simpa [countTopRefs] using ih

/-- The sequence scrub removes exactly one direct reference to the target
when the sequence contains at least one, and none otherwise. -/
theorem countTopRefs_scrubElems (id : ObjectId) (xs : List Object) :
    countTopRefs id (scrubElems id xs) + min 1 (countTopRefs id xs)
      = countTopRefs id xs := by
  induction xs with
  | nil => rfl
  | cons x xs ih =>
    by_cases h : x.isRefTo id
    · simp [scrubElems, h, countTopRefs, List.filter, countTopRefs_scrubTail id xs]
      have : countTopRefs id (scrubTail id xs) = countTopRefs id xs :=
        countTopRefs_scrubTail id xs
      simp [countTopRefs] at this
      omega
    · simp [scrubElems, h, countTopRefs, List.filter, scrub_isRefTo] at ih ⊢
      simpa [countTopRefs] using ih

/-! ## Reachability: the marking iteration computes exactly the
identities reachable from the trailer (claims C2, C3) -/

theorem mem_succsOf {t : Table} {id a : ObjectId} :
    a ∈ succsOf t id ↔ ∃ o, tblLookup t id = some o ∧ a ∈ refsIn o := by
  unfold succsOf
  cases h : tblLookup t id with
  | none => simp
  | some o => simp

theorem lookup_some_mem_keys {t : Table} {id : ObjectId} {o : Object}
    (h : tblLookup t id = some o) : id ∈ tblKeys t := by
  unfold tblLookup at h
  cases hf : t.find? (fun e => e.1 = id) with
  | none => rw [hf] at h; simp at h
  | some e =>
    have hp : e.1 = id := by simpa using List.find?_some hf
    have hm : e ∈ t := List.mem_of_find?_eq_some hf
    exact hp ▸ List.mem_map_of_mem (fun e => e.1) hm

/-- A table key always looks up to some object. -/
theorem mem_keys_lookup_some {t : Table} {a : ObjectId} (h : a ∈ tblKeys t) :
    ∃ o, tblLookup t a = some o := by
  obtain ⟨e, he, rfl⟩ := List.mem_map.1 h
  unfold tblLookup
  cases hf : t.find? (fun x => x.1 = e.1) with
  | some x => exact ⟨x.2, by simp⟩
  | none =>
    rw [List.find?_eq_none] at hf
    exact absurd (by simp) (hf e he)

theorem mem_reachStep {t : Table} {v : List ObjectId} {a : ObjectId} :
    a ∈ reachStep t v ↔ (a ∈ v ∨ ∃ id, id ∈ v ∧ a ∈ succsOf t id) := by
  unfold reachStep
  rw [List.mem_dedup, List.mem_append]
  constructor
  · rintro (h | h)
    · exact Or.inl h
    · obtain ⟨l, hl, ha⟩ := List.mem_flatten.1 h
      obtain ⟨id, hid, rfl⟩ := List.mem_map.1 hl
      exact Or.inr ⟨id, hid, ha⟩
  · rintro (h | ⟨id, hid, ha⟩)
    · exact Or.inl h
    · exact Or.inr (List.mem_flatten.2
        ⟨succsOf t id, List.mem_map.2 ⟨id, hid, rfl⟩, ha⟩)

theorem reachIter_mono_succ {t : Table} {v : List ObjectId} {n : Nat}
    {a : ObjectId} (h : a ∈ reachIter t v n) : a ∈ reachIter t v (n + 1) :=
  mem_reachStep.2 (Or.inl h)

theorem reachIter_mono {t : Table} {v : List ObjectId} {m n : Nat}
    (hmn : m ≤ n) {a : ObjectId} (h : a ∈ reachIter t v m) :
    a ∈ reachIter t v n := by
  induction n with
  | zero => have : m = 0 := Nat.le_zero.1 hmn; exact this ▸ h
  | succ n ih =>
    rcases Nat.lt_or_ge m (n + 1) with h1 | h2
    · exact reachIter_mono_succ (ih (Nat.lt_succ_iff.1 h1))
    · have : m = n + 1 := Nat.le_antisymm hmn h2
      exact this ▸ h

theorem reachStep_congr {t : Table} {v w : List ObjectId}
    (h : ∀ a, a ∈ v ↔ a ∈ w) (a : ObjectId) :
    a ∈ reachStep t v ↔ a ∈ reachStep t w := by
  rw [mem_reachStep, mem_reachStep]
  constructor
  · rintro (h1 | ⟨id, hid, hs⟩)
    · exact Or.inl ((h a).1 h1)
    · exact Or.inr ⟨id, (h id).1 hid, hs⟩
  · rintro (h1 | ⟨id, hid, hs⟩)
    · exact Or.inl ((h a).2 h1)
    · exact Or.inr ⟨id, (h id).2 hid, hs⟩

/-- When table-key membership of the marking stops growing, the next round
adds nothing at all: every producer of new marks is a table key. -/
theorem reach_keyStable_step {t : Table} {v : List ObjectId} {n : Nat}
    (h : ∀ a, a ∈ tblKeys t →
      (a ∈ reachIter t v (n + 1) ↔ a ∈ reachIter t v n)) :
    ∀ a, a ∈ reachIter t v (n + 2) ↔ a ∈ reachIter t v (n + 1) := by
  intro a
  constructor
  · intro ha
    rcases mem_reachStep.1 ha with h1 | ⟨id, hid, hs⟩
    · exact h1
    · obtain ⟨o, ho, hr⟩ := mem_succsOf.1 hs
      have hk : id ∈ tblKeys t := lookup_some_mem_keys ho
      have hid' : id ∈ reachIter t v n := (h id hk).1 hid
      exact mem_reachStep.2 (Or.inr ⟨id, hid', hs⟩)
  · exact reachIter_mono_succ

/-- Membership equality of consecutive rounds propagates to all later
rounds. -/
theorem reach_stable_propagate {t : Table} {v : List ObjectId} {n : Nat}
    (h : ∀ a, a ∈ reachIter t v (n + 1) ↔ a ∈ reachIter t v n) :
    ∀ m, n ≤ m →
      ∀ a, a ∈ reachIter t v (m + 1) ↔ a ∈ reachIter t v m := by
  intro m
  induction m with
  | zero =>
    intro hm
    have : n = 0 := Nat.le_zero.1 hm
    exact this ▸ h
  | succ m ih =>
    intro hm
    rcases Nat.lt_or_ge n (m + 1) with h1 | h2
    · exact fun a => reachStep_congr (ih (Nat.lt_succ_iff.1 h1)) a
    · have : n = m + 1 := Nat.le_antisymm hm h2
      exact this ▸ h

/-- Within `t.length` rounds the marking's table-key membership must stop
growing (pigeonhole on the key set). -/
theorem exists_keyStable (t : Table) (v : List ObjectId) :
    ∃ n, n ≤ t.length ∧ ∀ a, a ∈ tblKeys t →
      (a ∈ reachIter t v (n + 1) ↔ a ∈ reachIter t v n) := by
  by_contra hc
  push_neg at hc
  have key : ∀ n, n ≤ t.length →
      ((reachIter t v n).toFinset ∩ (tblKeys t).toFinset).card <
      ((reachIter t v (n + 1)).toFinset ∩ (tblKeys t).toFinset).card := by
    intro n hn
    obtain ⟨a, hak, hne⟩ := hc n hn
    have ha1 : a ∈ reachIter t v (n + 1) ∧ ¬ a ∈ reachIter t v n := by
      rcases hne with ⟨h1, h2⟩ | ⟨h1, h2⟩
      · exact ⟨h1, h2⟩
      · exact absurd (reachIter_mono_succ h2) h1
    apply Finset.card_lt_card
    constructor
    · intro x hx
      rcases Finset.mem_inter.1 hx with ⟨hx1, hx2⟩
      exact Finset.mem_inter.2
        ⟨List.mem_toFinset.2 (reachIter_mono_succ (List.mem_toFinset.1 hx1)), hx2⟩
    · intro hsub
      have : a ∈ (reachIter t v n).toFinset ∩ (tblKeys t).toFinset :=
        hsub (Finset.mem_inter.2
          ⟨List.mem_toFinset.2 ha1.1, List.mem_toFinset.2 hak⟩)
      exact ha1.2 (List.mem_toFinset.1 (Finset.mem_inter.1 this).1)
  have grow : ∀ n, n ≤ t.length + 1 →
      n ≤ ((reachIter t v n).toFinset ∩ (tblKeys t).toFinset).card := by
    intro n
    induction n with
    | zero => intro _; exact Nat.zero_le _
    | succ n ih =>
      intro hn
      have h1 := ih (Nat.le_of_succ_le hn)
      have h2 := key n (Nat.lt_succ_iff.1 (Nat.lt_of_succ_le hn))
      omega
  have hbound : ((reachIter t v (t.length + 1)).toFinset ∩
      (tblKeys t).toFinset).card ≤ t.length := by
    calc ((reachIter t v (t.length + 1)).toFinset ∩ (tblKeys t).toFinset).card
        ≤ (tblKeys t).toFinset.card := Finset.card_le_card Finset.inter_subset_right
      _ ≤ (tblKeys t).length := (tblKeys t).toFinset_card_le
      _ = t.length := List.length_map _ _
  have := grow (t.length + 1) (Nat.le_refl _)
  omega

/-- The marking is a fixpoint at the round count the definition uses. -/
theorem reach_fixpoint (t : Table) (v : List ObjectId) :
    ∀ a, a ∈ reachIter t v (t.length + 2 + 1) ↔
      a ∈ reachIter t v (t.length + 2) := by
  obtain ⟨n, hn, hst⟩ := exists_keyStable t v
  have h1 := reach_keyStable_step hst
  have h2 := reach_stable_propagate h1 (t.length + 2) (by omega)
  exact h2

/-- Spec-faithfulness of the reachability embedding: an identity is in the
computed set exactly when it is reachable from the trailer through a chain
of references/containers. -/
theorem reachable_iff_Reachable (doc : Document) (a : ObjectId) :
    a ∈ doc.reachableIds ↔ Reachable doc a := by
  constructor
  · have sound : ∀ n a,
        a ∈ reachIter doc.objects ((refsInEntries doc.trailer).dedup) n →
        Reachable doc a := by
      intro n
      induction n with
      | zero =>
        intro a ha
        exact Reachable.trailer (List.mem_dedup.1 ha)
      | succ n ih =>
        intro a ha
        rcases mem_reachStep.1 ha with h1 | ⟨id, hid, hs⟩
        · exact ih a h1
        · obtain ⟨o, ho, hr⟩ := mem_succsOf.1 hs
          exact Reachable.step (ih id hid) ho hr
    exact fun h => sound _ a h
  · intro h
    induction h with
    | trailer hm =>
      exact reachIter_mono (Nat.zero_le _) (List.mem_dedup.2 hm)
    | @step id id' o _ hlo hr ih =>
      have hstep : id' ∈ reachIter doc.objects
          ((refsInEntries doc.trailer).dedup) (doc.objects.length + 2 + 1) :=
        mem_reachStep.2 (Or.inr ⟨id, ih, mem_succsOf.2 ⟨o, hlo, hr⟩⟩)
      exact (reach_fixpoint doc.objects _ id').1 hstep

/-! ## Lemmas about bulk removal (claim C2) -/

theorem foldRemove_eq_filter (ids : List ObjectId) (t : Table) :
    ids.foldl (fun t i => tblRemove t i) t
      = t.filter (fun e => !(ids.contains e.1)) := by
  induction ids generalizing t with
  | nil => simp
  | cons i ids ih =>
    rw [List.foldl_cons, ih]
    unfold tblRemove
    rw [List.filter_filter]
    apply List.filter_congr
    intro e _
    by_cases h : e.1 = i
    · simp [h]
    · by_cases h2 : ids.contains e.1 <;> simp [h, h2, List.contains_cons]

theorem tblLookup_foldRemove (ids : List ObjectId) (t : Table) (k : ObjectId) :
    tblLookup (ids.foldl (fun t i => tblRemove t i) t) k
      = if k ∈ ids then none else tblLookup t k := by
  induction ids generalizing t with
  | nil => simp
  | cons i ids ih =>
    rw [List.foldl_cons, ih]
    by_cases h1 : k ∈ ids
    · simp [h1]
    · by_cases h2 : k = i
      · subst h2
        simp [h1, tblLookup_remove_self]
      · simp [h1, h2, tblLookup_remove_other t i k h2]

/-! ## Renumbering: substitution, counter and sorting lemmas (C3, C4, C9) -/

theorem buildReplace_acc (ids : List ObjectId)
    (rep : List (ObjectId × ObjectId)) (n : Nat) :
    ids.foldl
      (fun acc id =>
        (if id.1 ≠ acc.2 then acc.1 ++ [(id, (acc.2, id.2))] else acc.1,
         (acc.2 + 1) % u32Mod)) (rep, n)
      = (rep ++ (buildReplace ids n).1, (buildReplace ids n).2) := by
  induction ids generalizing rep n with
  | nil => simp [buildReplace]
  | cons id rest ih =>
    unfold buildReplace
    rw [List.foldl_cons, List.foldl_cons, ih, ih]
    by_cases h : id.1 = n <;> simp [h]

theorem buildReplace_snd (ids : List ObjectId) (s : Nat) :
    (buildReplace ids s).2
      = if ids.isEmpty then s else (s + ids.length) % u32Mod := by
  induction ids generalizing s with
  | nil => rfl
  | cons id rest ih =>
    unfold buildReplace
    rw [List.foldl_cons, buildReplace_acc]
    show (buildReplace rest ((s + 1) % u32Mod)).2 = _
    rw [ih]
    cases rest with
    | nil => simp
    | cons r rs =>
      simp only [List.isEmpty_cons, List.length_cons, Bool.false_eq_true,
        if_false]
      rw [Nat.mod_add_mod]
      congr 1
      omega

theorem buildReplace_fst (ids : List ObjectId) (s : Nat)
    (h : s + ids.length ≤ u32Mod) :
    (buildReplace ids s).1 = repOf ids s := by
  induction ids generalizing s with
  | nil => rfl
  | cons id rest ih =>
    unfold buildReplace
    rw [List.foldl_cons, buildReplace_acc]
    show (if id.1 ≠ s then [(id, (s, id.2))] else []) ++
        (buildReplace rest ((s + 1) % u32Mod)).1 = repOf (id :: rest) s
    unfold repOf
    cases rest with
    | nil => rfl
    | cons r rs =>
      have hm : (s + 1) % u32Mod = s + 1 := by
        apply Nat.mod_eq_of_lt
        simp only [List.length_cons] at h
        omega
      rw [hm]
      rw [ih (s + 1) (by simp only [List.length_cons] at h ⊢; omega)]

theorem insertId_perm (x : ObjectId) (l : List ObjectId) :
    List.Perm (insertId x l) (x :: l) := by
  induction l with
  | nil => exact List.Perm.refl _
  | cons y ys ih =>
    unfold insertId
    by_cases h : idLe x y = true
    · simp [h]
    · simp only [h, if_false, Bool.false_eq_true]
      exact (ih.cons y).trans (List.Perm.swap x y ys)

theorem sortIds_perm (l : List ObjectId) : List.Perm (sortIds l) l := by
  induction l with
  | nil => exact List.Perm.refl _
  | cons x xs ih =>
    unfold sortIds
    exact (insertId_perm x _).trans (ih.cons x)

theorem sortIds_length (l : List ObjectId) : (sortIds l).length = l.length :=
  (sortIds_perm l).length_eq

theorem repOf_fst_mem {ids : List ObjectId} {s : Nat}
    {p : ObjectId × ObjectId} (h : p ∈ repOf ids s) : p.1 ∈ ids := by
  induction ids generalizing s with
  | nil => cases h
  | cons id rest ih =>
    unfold repOf at h
    rw [List.mem_append] at h
    rcases h with h | h
    · by_cases hc : id.1 = s
      · simp [hc] at h
      · simp [hc] at h
        subst h
        simp
    · exact List.mem_cons_of_mem id (ih h)

theorem repOf_snd_bound {ids : List ObjectId} {s : Nat}
    {p : ObjectId × ObjectId} (h : p ∈ repOf ids s) :
    s ≤ p.2.1 ∧ p.2.1 < s + ids.length := by
  induction ids generalizing s with
  | nil => cases h
  | cons id rest ih =>
    unfold repOf at h
    rw [List.mem_append] at h
    rcases h with h | h
    · by_cases hc : id.1 = s
      · simp [hc] at h
      · simp [hc] at h
        subst h
        simp only [List.length_cons]
        omega
    · have := ih h
      simp only [List.length_cons]
      omega

theorem repLookup_none_of_not_mem {ids : List ObjectId} {s : Nat}
    {id : ObjectId} (h : ¬ id ∈ ids) : repLookup (repOf ids s) id = none := by
  unfold repLookup
  have hf : (repOf ids s).find? (fun e => e.1 = id) = none := by
    rw [List.find?_eq_none]
    intro p hp
    simp only [decide_eq_true_eq]
    intro hc
    exact h (hc ▸ repOf_fst_mem hp)
  rw [hf]
  rfl

theorem repLookup_get {ids : List ObjectId} (hnd : ids.Nodup) (s : Nat)
    (i : Fin ids.length) :
    repLookup (repOf ids s) (ids.get i)
      = if (ids.get i).1 = s + i.1 then none
        else some (s + i.1, (ids.get i).2) := by
  induction ids generalizing s with
  | nil => exact absurd i.2 (by simp)
  | cons id rest ih =>
    have hnotin : ¬ id ∈ rest := (List.nodup_cons.1 hnd).1
    have hnd' : rest.Nodup := (List.nodup_cons.1 hnd).2
    rcases i with ⟨iv, hi⟩
    cases iv with
    | zero =>
      show repLookup (repOf (id :: rest) s) id = _
      unfold repOf
      by_cases hc : id.1 = s
      · simp only [hc, ne_eq, not_true_eq_false, if_false, List.nil_append]
        rw [repLookup_none_of_not_mem hnotin]
        simp [hc]
      · simp only [ne_eq, hc, not_false_eq_true, if_true, List.singleton_append]
        unfold repLookup
        rw [List.find?_cons_of_pos _ (by simp)]
        simp [Nat.add_zero, hc]
    | succ j =>
      have hj : j < rest.length := by simpa using hi
      show repLookup (repOf (id :: rest) s) (rest.get ⟨j, hj⟩) = _
      have hne : ¬ id = rest.get ⟨j, hj⟩ := by
        intro hc
        exact hnotin (hc ▸ rest.get_mem j hj)
      unfold repOf
      by_cases hc : id.1 = s
      · simp only [hc, ne_eq, not_true_eq_false, if_false, List.nil_append]
        rw [ih hnd' (s + 1) ⟨j, hj⟩]
        have h2 : s + 1 + j = s + (j + 1) := by omega
        rw [show ((⟨j, hj⟩ : Fin rest.length) : Nat) = j from rfl, h2]
        rfl
      · simp only [ne_eq, hc, not_false_eq_true, if_true, List.singleton_append]
        unfold repLookup
        rw [List.find?_cons_of_neg _ (by simp only [decide_eq_true_eq]; exact hne)]
        have := ih hnd' (s + 1) ⟨j, hj⟩
        unfold repLookup at this
        rw [this]
        have h2 : s + 1 + j = s + (j + 1) := by omega
        rw [show ((⟨j, hj⟩ : Fin rest.length) : Nat) = j from rfl, h2]
        rfl

theorem applyRep_get {ids : List ObjectId} (hnd : ids.Nodup) (s : Nat)
    (i : Fin ids.length) :
    applyRep (repOf ids s) (ids.get i) = (s + i.1, (ids.get i).2) := by
  unfold applyRep
  rw [repLookup_get hnd s i]
  by_cases hc : (ids.get i).1 = s + i.1
  · simp only [hc, if_pos rfl, Option.getD_none]
    cases hg : ids.get i with
    | mk a b =>
      rw [hg] at hc
      simp at hc ⊢
      rw [hc]
  · rw [if_neg hc]
    rfl

theorem applyRep_not_mem {ids : List ObjectId} {s : Nat} {id : ObjectId}
    (h : ¬ id ∈ ids) : applyRep (repOf ids s) id = id := by
  unfold applyRep
  rw [repLookup_none_of_not_mem h]
  rfl

theorem repOf_mem_iff {ids : List ObjectId} {s : Nat}
    {p : ObjectId × ObjectId} :
    p ∈ repOf ids s ↔ ∃ j, ∃ h : j < ids.length,
      (ids.get ⟨j, h⟩).1 ≠ s + j ∧
      p = (ids.get ⟨j, h⟩, (s + j, (ids.get ⟨j, h⟩).2)) := by
  induction ids generalizing s with
  | nil => simp [repOf]
  | cons id rest ih =>
    unfold repOf
    rw [List.mem_append]
    constructor
    · rintro (h | h)
      · by_cases hc : id.1 = s
        · simp [hc] at h
        · simp [hc] at h
          refine ⟨0, by simp, by simpa using hc, ?_⟩
          rw [h]
          simp
      · obtain ⟨j, hj, hne, hp⟩ := ih.1 h
        refine ⟨j + 1, by simpa using hj, ?_, ?_⟩
        · show ¬ (rest.get ⟨j, hj⟩).1 = s + (j + 1)
          intro hc
          apply hne
          show (rest.get ⟨j, hj⟩).1 = s + 1 + j
          omega
        · show p = (rest.get ⟨j, hj⟩, (s + (j + 1), (rest.get ⟨j, hj⟩).2))
          rw [hp]
          have he : s + 1 + j = s + (j + 1) := by omega
          rw [he]
    · rintro ⟨j, hj, hne, hp⟩
      cases j with
      | zero =>
        left
        have hne0 : ¬ id.1 = s := by simpa using hne
        rw [hp]
        simp [hne0]
      | succ j =>
        right
        have hj' : j < rest.length := by simpa using hj
        apply ih.2
        refine ⟨j, hj', ?_, ?_⟩
        · show ¬ (rest.get ⟨j, hj'⟩).1 = s + 1 + j
          intro hc
          apply hne
          show (rest.get ⟨j, hj'⟩).1 = s + (j + 1)
          omega
        · show p = (rest.get ⟨j, hj'⟩, (s + 1 + j, (rest.get ⟨j, hj'⟩).2))
          have he : s + 1 + j = s + (j + 1) := by omega
          rw [he]
          exact hp

theorem repOf_fst_sublist (ids : List ObjectId) (s : Nat) :
    List.Sublist ((repOf ids s).map (fun p => p.1)) ids := by
  induction ids generalizing s with
  | nil => simp [repOf]
  | cons id rest ih =>
    unfold repOf
    by_cases hc : id.1 = s
    · simp only [hc, ne_eq, not_true_eq_false, if_false, List.nil_append]
      exact (ih (s + 1)).cons id
    · simp only [ne_eq, hc, not_false_eq_true, if_true, List.singleton_append,
        List.map_cons]
      exact (ih (s + 1)).cons₂ id

theorem repOf_snd_nodup (ids : List ObjectId) (s : Nat) :
    ((repOf ids s).map (fun p => p.2)).Nodup := by
  induction ids generalizing s with
  | nil => simp [repOf]
  | cons id rest ih =>
    unfold repOf
    by_cases hc : id.1 = s
    · simp only [hc, ne_eq, not_true_eq_false, if_false, List.nil_append]
      exact ih (s + 1)
    · simp only [ne_eq, hc, not_false_eq_true, if_true, List.singleton_append,
        List.map_cons]
      rw [List.nodup_cons]
      refine ⟨?_, ih (s + 1)⟩
      intro hmem
      obtain ⟨p, hp, hps⟩ := List.mem_map.1 hmem
      have := (repOf_snd_bound hp).1
      rw [hps] at this
      simp at this

theorem tblKeys_filter (t : Table) (p : ObjectId → Bool) :
    tblKeys (t.filter (fun e => p e.1)) = (tblKeys t).filter p := by
  induction t with
  | nil => rfl
  | cons e t ih =>
    by_cases h : p e.1
    · simp [tblKeys, List.filter_cons, h] at ih ⊢
      exact ih
    · simp [tblKeys, List.filter_cons, h] at ih ⊢
      exact ih

theorem tblLookup_none_of_not_mem_keys {t : Table} {k : ObjectId}
    (h : ¬ k ∈ tblKeys t) : tblLookup t k = none := by
  cases hx : tblLookup t k with
  | none => rfl
  | some o => exact absurd (lookup_some_mem_keys hx) h

theorem tblLookup_append (t1 t2 : Table) (k : ObjectId) :
    tblLookup (t1 ++ t2) k
      = match tblLookup t1 k with
        | some o => some o
        | none => tblLookup t2 k := by
  induction t1 with
  | nil => simp [tblLookup]
  | cons e t1 ih =>
    rw [List.cons_append, tblLookup_cons, tblLookup_cons]
    by_cases h : e.1 = k
    · simp [h]
    · simp [h, ih]

theorem tblLookup_mapReplace (t : Table) (k k' : ObjectId) (v : Object) :
    tblLookup (t.map (fun e => if e.1 = k then (k, v) else e)) k'
      = if k' = k then (tblLookup t k).map (fun _ => v) else tblLookup t k' := by
  induction t with
  | nil => by_cases h : k' = k <;> simp [tblLookup, h]
  | cons e t ih =>
    by_cases he : e.1 = k <;> by_cases hk : k' = k
    · subst hk
      simp [List.map_cons, tblLookup_cons, he, ih]
    · have h1 : ¬ k = k' := fun hc => hk hc.symm
      have h2 : ¬ e.1 = k' := by rw [he]; exact h1
      simp [List.map_cons, tblLookup_cons, he, ih, hk, h1, h2]
    · subst hk
      simp [List.map_cons, tblLookup_cons, he, ih]
    · by_cases hek : e.1 = k'
      · simp [List.map_cons, tblLookup_cons, he, hk, hek]
      · simp [List.map_cons, tblLookup_cons, he, ih, hk, hek]

theorem tblLookup_insert (t : Table) (k k' : ObjectId) (v : Object) :
    tblLookup (tblInsert t k v) k'
      = if k' = k then some v else tblLookup t k' := by
  unfold tblInsert
  cases hA : t.any (fun e => e.1 = k) with
  | true =>
    simp only [if_true]
    rw [tblLookup_mapReplace]
    by_cases hk : k' = k
    · subst hk
      rw [if_pos rfl, if_pos rfl]
      obtain ⟨e, he, hek⟩ := List.any_eq_true.1 hA
      have hek' : e.1 = k' := by simpa using hek
      obtain ⟨o, ho⟩ : ∃ o, tblLookup t k' = some o := by
        apply mem_keys_lookup_some
        exact hek' ▸ List.mem_map_of_mem (fun e => e.1) he
      rw [ho]
      rfl
    · rw [if_neg hk, if_neg hk]
  | false =>
    simp only [Bool.false_eq_true, if_false]
    rw [tblLookup_append]
    by_cases hk : k' = k
    · subst hk
      have hnone : tblLookup t k' = none := by
        apply tblLookup_none_of_not_mem_keys
        intro hmem
        obtain ⟨e, he, hek⟩ := List.mem_map.1 hmem
        have : t.any (fun x => x.1 = k') = true :=
          List.any_eq_true.2 ⟨e, he, by simp [hek]⟩
        rw [this] at hA
        cases hA
      rw [hnone]
      simp [tblLookup_cons]
    · cases hx : tblLookup t k' with
      | some o => simp [hx, hk]
      | none =>
        have h1 : ¬ k = k' := fun hc => hk hc.symm
        simp [hx, hk, tblLookup_cons, h1, tblLookup_nil]

theorem tblLookup_foldInsert (hs : Table) (t0 : Table) (k : ObjectId)
    (hnd : (tblKeys hs).Nodup) :
    tblLookup (hs.foldl (fun t e => tblInsert t e.1 e.2) t0) k
      = match tblLookup hs k with
        | some o => some o
        | none => tblLookup t0 k := by
  induction hs generalizing t0 with
  | nil => simp [tblLookup]
  | cons e hs ih =>
    rw [List.foldl_cons, tblLookup_cons]
    have hnd' : (tblKeys hs).Nodup := (List.nodup_cons.1 hnd).2
    have hnotin : ¬ e.1 ∈ tblKeys hs := (List.nodup_cons.1 hnd).1
    rw [ih _ hnd']
    by_cases h : e.1 = k
    · have : tblLookup hs k = none :=
        tblLookup_none_of_not_mem_keys (h ▸ hnotin)
      rw [this, if_pos h, tblLookup_insert, if_pos h.symm]
    · rw [if_neg h]
      cases hl : tblLookup hs k with
      | some o => simp
      | none =>
        rw [tblLookup_insert, if_neg (fun hc : k = e.1 => h hc.symm)]

theorem foldInsert_append (hs : Table) (t0 : Table)
    (hfresh : ∀ e ∈ hs, ¬ e.1 ∈ tblKeys t0)
    (hnd : (tblKeys hs).Nodup) :
    hs.foldl (fun t e => tblInsert t e.1 e.2) t0 = t0 ++ hs := by
  induction hs generalizing t0 with
  | nil => simp
  | cons e hs ih =>
    rw [List.foldl_cons]
    have h1 : tblInsert t0 e.1 e.2 = t0 ++ [e] := by
      unfold tblInsert
      have : t0.any (fun x => x.1 = e.1) = false := by
        rw [List.any_eq_false]
        intro x hx
        simp only [decide_eq_true_eq]
        intro hc
        exact hfresh e (List.mem_cons_self e hs) (hc ▸ List.mem_map_of_mem _ hx)
      rw [this]
      simp
    rw [h1, ih]
    · simp
    · intro f hf
      rw [tblKeys, List.map_append]
      rw [List.mem_append]
      rintro (hx | hx)
      · exact hfresh f (List.mem_cons_of_mem e hf) hx
      · have hfe : f.1 = e.1 := by simpa using hx
        have hm : f.1 ∈ tblKeys hs := List.mem_map_of_mem _ hf
        rw [hfe] at hm
        exact (List.nodup_cons.1 hnd).1 hm
    · exact (List.nodup_cons.1 hnd).2

theorem tblLookup_mapValues (t : Table) (f : Object → Object) (k : ObjectId) :
    tblLookup (t.map (fun e => (e.1, f e.2))) k = (tblLookup t k).map f := by
  induction t with
  | nil => simp [tblLookup]
  | cons e t ih =>
    rw [List.map_cons, tblLookup_cons, tblLookup_cons]
    by_cases h : e.1 = k
    · simp [h]
    · simp [h, ih]

theorem tblKeys_mapValues (t : Table) (f : Object → Object) :
    tblKeys (t.map (fun e => (e.1, f e.2))) = tblKeys t := by
  unfold tblKeys
  rw [List.map_map]
  rfl

theorem tblLookup_filterNotContains (l : List ObjectId) (t : Table)
    (k : ObjectId) :
    tblLookup (t.filter (fun e => !(l.contains e.1))) k
      = if k ∈ l then none else tblLookup t k := by
  rw [← foldRemove_eq_filter]
  exact tblLookup_foldRemove l t k

theorem removePhase_fst (rep : List (ObjectId × ObjectId)) (t : Table) :
    (removePhase rep t).1
      = t.filter (fun e => !((rep.map (fun p => p.1)).contains e.1)) := by
  induction rep generalizing t with
  | nil => simp [removePhase]
  | cons p rest ih =>
    rcases p with ⟨old, nw⟩
    unfold removePhase
    cases hl : tblLookup t old with
    | some o =>
      simp only
      rw [ih]
      unfold tblRemove
      rw [List.filter_filter]
      apply List.filter_congr
      intro e _
      by_cases h : e.1 = old
      · simp [h, List.contains_cons]
      · simp [h, List.contains_cons]
    | none =>
      simp only
      rw [ih]
      apply List.filter_congr
      intro e he
      have : ¬ e.1 = old := by
        intro hc
        unfold tblLookup at hl
        have hfind := Option.map_eq_none'.1 hl
        rw [List.find?_eq_none] at hfind
        exact absurd (by simp [hc]) (hfind e he)
      simp [this, List.contains_cons]

theorem removePhase_snd (rep : List (ObjectId × ObjectId)) (t : Table)
    (hnd : (rep.map (fun p => p.1)).Nodup) :
    (removePhase rep t).2
      = rep.filterMap (fun p => (tblLookup t p.1).map (fun o => (p.2, o))) := by
  induction rep generalizing t with
  | nil => rfl
  | cons p rest ih =>
    rcases p with ⟨old, nw⟩
    have hnotin : ¬ old ∈ rest.map (fun p => p.1) :=
      (List.nodup_cons.1 hnd).1
    have hnd' : (rest.map (fun p => p.1)).Nodup := (List.nodup_cons.1 hnd).2
    unfold removePhase
    cases hl : tblLookup t old with
    | some o =>
      simp only
      rw [List.filterMap_cons]
      simp only [hl, Option.map_some]
      rw [ih _ hnd']
      congr 1
      apply List.filterMap_congr
      intro q hq
      have hne : q.1 ≠ old := by
        intro hc
        exact hnotin (hc ▸ List.mem_map_of_mem _ hq)
      rw [tblLookup_remove_other t old q.1 hne]
    | none =>
      simp only
      rw [List.filterMap_cons]
      simp only [hl, Option.map_none]
      exact ih t hnd'

theorem insertHeld_perm (x : ObjectId × Object) (l : List (ObjectId × Object)) :
    List.Perm (insertHeld x l) (x :: l) := by
  induction l with
  | nil => exact List.Perm.refl _
  | cons y ys ih =>
    unfold insertHeld
    by_cases h : idLe x.1 y.1 = true
    · simp [h]
    · simp only [h, if_false, Bool.false_eq_true]
      exact (ih.cons y).trans (List.Perm.swap x y ys)

theorem sortHeld_perm (l : List (ObjectId × Object)) :
    List.Perm (sortHeld l) l := by
  induction l with
  | nil => exact List.Perm.refl _
  | cons x xs ih =>
    unfold sortHeld
    exact (insertHeld_perm x _).trans (ih.cons x)

/-- With unique keys, lookup success is plain membership. -/
theorem tblLookup_some_iff_mem {t : Table} (hnd : (tblKeys t).Nodup)
    {k : ObjectId} {o : Object} :
    tblLookup t k = some o ↔ (k, o) ∈ t := by
  have hnd' : (t.map (fun e => e.1)).Nodup := hnd
  constructor
  · intro h
    unfold tblLookup at h
    cases hf : t.find? (fun e => e.1 = k) with
    | none => rw [hf] at h; cases h
    | some e =>
      rw [hf] at h
      have hk : e.1 = k := by simpa using List.find?_some hf
      have hv : e.2 = o := by simpa using h
      have : e = (k, o) := by
        rcases e with ⟨a, b⟩
        simp only at hk hv
        rw [hk, hv]
      exact this ▸ List.mem_of_find?_eq_some hf
  · intro h
    have hx : ∃ e, t.find? (fun e => e.1 = k) = some e := by
      cases hg : t.find? (fun e => e.1 = k) with
      | none =>
        rw [List.find?_eq_none] at hg
        exact absurd (by simp) (hg (k, o) h)
      | some e => exact ⟨e, rfl⟩
    obtain ⟨e, hg⟩ := hx
    have hk : e.1 = k := by simpa using List.find?_some hg
    have hem : e ∈ t := List.mem_of_find?_eq_some hg
    have huniq : e = (k, o) :=
      List.inj_on_of_nodup_map hnd' hem h (by simp [hk])
    unfold tblLookup
    rw [hg, huniq]
    rfl

/-- With unique keys, any permutation of a table computes the same
lookups. -/
theorem tblLookup_eq_of_perm {t1 t2 : Table} (hp : List.Perm t1 t2)
    (hnd : (tblKeys t1).Nodup) (k : ObjectId) :
    tblLookup t1 k = tblLookup t2 k := by
  have hnd1 : (List.map (fun e => e.1) t1).Nodup := hnd
  have hnd2' : (List.map (fun e => e.1) t2).Nodup :=
    ((hp.map (fun e => e.1)).nodup_iff).1 hnd1
  have hnd2 : (tblKeys t2).Nodup := hnd2'
  cases h1 : tblLookup t1 k with
  | some o =>
    exact ((tblLookup_some_iff_mem hnd2).2
      (hp.mem_iff.1 ((tblLookup_some_iff_mem hnd).1 h1))).symm
  | none =>
    cases h2 : tblLookup t2 k with
    | none => rfl
    | some o =>
      have h3 := (tblLookup_some_iff_mem hnd).2
        (hp.mem_iff.2 ((tblLookup_some_iff_mem hnd2).1 h2))
      rw [h1] at h3
      cases h3

theorem repLookup_isSome_iff_mem_fst (rep : List (ObjectId × ObjectId))
    (id : ObjectId) :
    (repLookup rep id).isSome ↔ id ∈ rep.map (fun p => p.1) := by
  unfold repLookup
  cases hf : rep.find? (fun q => q.1 = id) with
  | none =>
    rw [List.find?_eq_none] at hf
    constructor
    · intro h
      simp at h
    · intro hmem
      obtain ⟨q, hq, hq1⟩ := List.mem_map.1 hmem
      exact absurd (by simp [hq1]) (hf q hq)
  | some q =>
    constructor
    · intro _
      have hq1 : q.1 = id := by simpa using List.find?_some hf
      exact hq1 ▸ List.mem_map_of_mem _ (List.mem_of_find?_eq_some hf)
    · intro _
      simp

theorem repLookup_entry {rep : List (ObjectId × ObjectId)} {id nw : ObjectId}
    (h : repLookup rep id = some nw) : (id, nw) ∈ rep := by
  unfold repLookup at h
  cases hf : rep.find? (fun q => q.1 = id) with
  | none => rw [hf] at h; cases h
  | some q =>
    rw [hf] at h
    have hq1 : q.1 = id := by simpa using List.find?_some hf
    have hq2 : q.2 = nw := by simpa using h
    have : q = (id, nw) := by
      rcases q with ⟨a, b⟩
      simp only at hq1 hq2
      rw [hq1, hq2]
    exact this ▸ List.mem_of_find?_eq_some hf

theorem filterMap_keys_total (rep : List (ObjectId × ObjectId)) (t : Table)
    (h : ∀ p ∈ rep, ∃ o, tblLookup t p.1 = some o) :
    tblKeys (rep.filterMap
        (fun p => (tblLookup t p.1).map (fun o => (p.2, o))))
      = rep.map (fun p => p.2) := by
  induction rep with
  | nil => rfl
  | cons p rest ih =>
    obtain ⟨o, ho⟩ := h p (List.mem_cons_self p rest)
    rw [List.filterMap_cons]
    simp only [ho, Option.map_some]
    show tblKeys ((p.2, o) :: _) = _
    unfold tblKeys
    rw [List.map_cons, List.map_cons]
    congr 1
    exact ih (fun q hq => h q (List.mem_cons_of_mem p hq))

/-- The core account of `renumber_objects_with` under unique table keys and
no counter overflow: (a) the lookup of every table identity relocates to
its substituted identity with its value's references rewritten; (b) the new
key list is a permutation of the substituted old (sorted) key list; (c) the
trailer is the old trailer with references rewritten. -/
theorem renumber_core (doc : Document) (s : Nat)
    (hnd : (tblKeys doc.objects).Nodup)
    (hbound : s + doc.objects.length ≤ u32Mod) :
    (∀ id, id ∈ tblKeys doc.objects →
      tblLookup (doc.renumber_objects_with s).objects (renumPhi doc s id)
        = (tblLookup doc.objects id).map (renumObject (renumRep doc s))) ∧
    List.Perm (tblKeys (doc.renumber_objects_with s).objects)
      ((sortIds (tblKeys doc.objects)).map (renumPhi doc s)) ∧
    (doc.renumber_objects_with s).trailer
      = renumEntries (renumRep doc s) doc.trailer ∧
    (∀ e, e ∈ (doc.renumber_objects_with s).objects →
      ∃ f, f ∈ doc.objects ∧ e.2 = renumObject (renumRep doc s) f.2) := by
  have hLperm : List.Perm (sortIds (tblKeys doc.objects)) (tblKeys doc.objects) :=
    sortIds_perm _
  have hLnd : (sortIds (tblKeys doc.objects)).Nodup := hLperm.nodup_iff.2 hnd
  have hLlen : (sortIds (tblKeys doc.objects)).length = doc.objects.length := by
    rw [sortIds_length]; exact List.length_map _ _
  have hbr : (buildReplace (sortIds (tblKeys doc.objects)) s).1
      = renumRep doc s := by
    apply buildReplace_fst
    rw [hLlen]; exact hbound
  have holds_sub : List.Sublist ((renumRep doc s).map (fun p => p.1))
      (sortIds (tblKeys doc.objects)) := repOf_fst_sublist _ s
  have holds_nd : ((renumRep doc s).map (fun p => p.1)).Nodup :=
    holds_sub.nodup hLnd
  have htargets_nd : ((renumRep doc s).map (fun p => p.2)).Nodup :=
    repOf_snd_nodup _ s
  have holds_keys : ∀ p ∈ renumRep doc s, ∃ o,
      tblLookup doc.objects p.1 = some o := by
    intro p hp
    apply mem_keys_lookup_some
    exact hLperm.mem_iff.1 (holds_sub.subset (List.mem_map_of_mem _ hp))
  have hheld_eq : (removePhase (renumRep doc s) doc.objects).2
      = (renumRep doc s).filterMap
          (fun p => (tblLookup doc.objects p.1).map (fun o => (p.2, o))) :=
    removePhase_snd _ _ holds_nd
  have hheld_keys : tblKeys (removePhase (renumRep doc s) doc.objects).2
      = (renumRep doc s).map (fun p => p.2) := by
    rw [hheld_eq]
    exact filterMap_keys_total _ _ holds_keys
  have hheld_kn : (tblKeys (removePhase (renumRep doc s) doc.objects).2).Nodup := by
    rw [hheld_keys]; exact htargets_nd
  have hheld_get : ∀ p ∈ renumRep doc s, ∀ o,
      tblLookup doc.objects p.1 = some o →
      tblLookup (removePhase (renumRep doc s) doc.objects).2 p.2 = some o := by
    intro p hp o ho
    rw [tblLookup_some_iff_mem hheld_kn, hheld_eq]
    exact List.mem_filterMap.2 ⟨p, hp, by rw [ho]; rfl⟩
  have hrem1_lookup : ∀ k,
      tblLookup (removePhase (renumRep doc s) doc.objects).1 k
        = if k ∈ (renumRep doc s).map (fun p => p.1) then none
          else tblLookup doc.objects k := by
    intro k
    rw [removePhase_fst]
    exact tblLookup_filterNotContains _ _ k
  have hrem1_keys : tblKeys (removePhase (renumRep doc s) doc.objects).1
      = (tblKeys doc.objects).filter
          (fun k => !(((renumRep doc s).map (fun p => p.1)).contains k)) := by
    rw [removePhase_fst]
    exact tblKeys_filter doc.objects
      (fun k => !(((renumRep doc s).map (fun p => p.1)).contains k))
  -- the sorted holding area
  have hsort_perm : List.Perm (sortHeld (removePhase (renumRep doc s) doc.objects).2)
      (removePhase (renumRep doc s) doc.objects).2 := sortHeld_perm _
  have hsort_kn' : (List.map (fun e => e.1)
      (sortHeld (removePhase (renumRep doc s) doc.objects).2)).Nodup := by
    have h2 : (List.map (fun e => e.1)
        (removePhase (renumRep doc s) doc.objects).2).Nodup := hheld_kn
    exact ((hsort_perm.map (fun e => e.1)).nodup_iff).2 h2
  have hsort_kn : (tblKeys
      (sortHeld (removePhase (renumRep doc s) doc.objects).2)).Nodup := hsort_kn'
  have hsort_lookup : ∀ k,
      tblLookup (sortHeld (removePhase (renumRep doc s) doc.objects).2) k
        = tblLookup (removePhase (renumRep doc s) doc.objects).2 k := by
    intro k
    exact tblLookup_eq_of_perm hsort_perm hsort_kn k
  -- unmoved identities are their own substitutes and collide with no target
  have hunmoved : ∀ i, ∀ hi : i < (sortIds (tblKeys doc.objects)).length,
      repLookup (renumRep doc s) ((sortIds (tblKeys doc.objects)).get ⟨i, hi⟩) = none →
      ((sortIds (tblKeys doc.objects)).get ⟨i, hi⟩).1 = s + i := by
    intro i hi h
    have h0 := repLookup_get hLnd s ⟨i, hi⟩
    have h1 : repLookup (renumRep doc s) ((sortIds (tblKeys doc.objects)).get ⟨i, hi⟩)
        = if ((sortIds (tblKeys doc.objects)).get ⟨i, hi⟩).1 = s + i then none
          else some (s + i, ((sortIds (tblKeys doc.objects)).get ⟨i, hi⟩).2) := h0
    rw [h] at h1
    by_cases hc : ((sortIds (tblKeys doc.objects)).get ⟨i, hi⟩).1 = s + i
    · exact hc
    · rw [if_neg hc] at h1
      cases h1
  have hnotarget : ∀ id, repLookup (renumRep doc s) id = none →
      id ∈ tblKeys doc.objects →
      ¬ id ∈ (renumRep doc s).map (fun p => p.2) := by
    intro id hnone hkt hmem
    obtain ⟨p, hp, hpe⟩ := List.mem_map.1 hmem
    obtain ⟨j, hj, hjne, hpeq⟩ := repOf_mem_iff.1 hp
    obtain ⟨⟨i, hi⟩, hgi⟩ := List.mem_iff_get.1 (hLperm.mem_iff.2 hkt)
    have hid1 : id.1 = s + i := by
      rw [← hgi]
      exact hunmoved i hi (by rw [hgi]; exact hnone)
    have hid2 : id.1 = s + j := by
      rw [← hpe, hpeq]
    have hij : i = j := by omega
    apply hjne
    subst hij
    rw [hgi, hid1]
  -- the objects and trailer of the renumbered document, in normal form
  have hobj_eq : (doc.renumber_objects_with s).objects
      = ((sortHeld (removePhase (renumRep doc s) doc.objects).2).foldl
          (fun tt e => tblInsert tt e.1 e.2)
          (removePhase (renumRep doc s) doc.objects).1).map
        (fun e => (e.1, renumObject (renumRep doc s) e.2)) := by
    simp only [Document.renumber_objects_with]
    rw [hbr]
  have htr_eq : (doc.renumber_objects_with s).trailer
      = renumEntries (renumRep doc s) doc.trailer := by
    simp only [Document.renumber_objects_with]
    rw [hbr]
  refine ⟨?_, ?_, htr_eq, ?_⟩
  case refine_3 =>
    intro e he
    rw [hobj_eq] at he
    obtain ⟨g, hg, rfl⟩ := List.mem_map.1 he
    have hfresh : ∀ e ∈ sortHeld (removePhase (renumRep doc s) doc.objects).2,
        ¬ e.1 ∈ tblKeys (removePhase (renumRep doc s) doc.objects).1 := by
      intro e he hker
      have he' : e ∈ (removePhase (renumRep doc s) doc.objects).2 :=
        hsort_perm.mem_iff.1 he
      have he1 : e.1 ∈ (renumRep doc s).map (fun p => p.2) := by
        rw [← hheld_keys]
        exact List.mem_map_of_mem _ he'
      rw [hrem1_keys, List.mem_filter] at hker
      obtain ⟨hkt, hnmov⟩ := hker
      have hnone : repLookup (renumRep doc s) e.1 = none := by
        cases hx : repLookup (renumRep doc s) e.1 with
        | none => rfl
        | some nw =>
          exfalso
          have hsm : (repLookup (renumRep doc s) e.1).isSome := by rw [hx]; rfl
          have := (repLookup_isSome_iff_mem_fst _ e.1).1 hsm
          simp [this] at hnmov
      exact hnotarget e.1 hnone hkt he1
    rw [foldInsert_append _ _ hfresh hsort_kn] at hg
    rw [List.mem_append] at hg
    rcases hg with hg | hg
    · rw [removePhase_fst] at hg
      exact ⟨g, List.mem_of_mem_filter hg, rfl⟩
    · have hg' : g ∈ (removePhase (renumRep doc s) doc.objects).2 :=
        hsort_perm.mem_iff.1 hg
      rw [hheld_eq] at hg'
      obtain ⟨p, hp, hpe⟩ := List.mem_filterMap.1 hg'
      cases hl : tblLookup doc.objects p.1 with
      | none => rw [hl] at hpe; cases hpe
      | some o =>
        rw [hl] at hpe
        have hgo : g.2 = o := by
          have : (p.2, o) = g := by simpa using hpe
          rw [← this]
        unfold tblLookup at hl
        cases hf : doc.objects.find? (fun x => x.1 = p.1) with
        | none => rw [hf] at hl; cases hl
        | some f =>
          rw [hf] at hl
          have hfo : f.2 = o := by simpa using hl
          exact ⟨f, List.mem_of_find?_eq_some hf, by rw [hgo, hfo]⟩
  · -- the relocated lookup
    intro id hid
    obtain ⟨⟨i, hi⟩, hgi⟩ := List.mem_iff_get.1 (hLperm.mem_iff.2 hid)
    obtain ⟨o, ho⟩ := mem_keys_lookup_some hid
    rw [hobj_eq, tblLookup_mapValues,
      tblLookup_foldInsert _ _ _ hsort_kn, hsort_lookup]
    cases hrl : repLookup (renumRep doc s) id with
    | some nw =>
      have hphi : renumPhi doc s id = nw := by
        unfold renumPhi applyRep
        rw [hrl]
        rfl
      have hentry : (id, nw) ∈ renumRep doc s := repLookup_entry hrl
      rw [hphi, hheld_get (id, nw) hentry o ho, ho]
    | none =>
      have hphi : renumPhi doc s id = id := by
        unfold renumPhi applyRep
        rw [hrl]
        rfl
      rw [hphi]
      have h1 : tblLookup (removePhase (renumRep doc s) doc.objects).2 id
          = none := by
        apply tblLookup_none_of_not_mem_keys
        rw [hheld_keys]
        exact hnotarget id hrl hid
      rw [h1, hrem1_lookup]
      rw [if_neg]
      intro hin
      have : (repLookup (renumRep doc s) id).isSome :=
        (repLookup_isSome_iff_mem_fst _ id).2 hin
      rw [hrl] at this
      cases this
  · -- the key permutation
    have hfresh : ∀ e ∈ sortHeld (removePhase (renumRep doc s) doc.objects).2,
        ¬ e.1 ∈ tblKeys (removePhase (renumRep doc s) doc.objects).1 := by
      intro e he hker
      have he' : e ∈ (removePhase (renumRep doc s) doc.objects).2 :=
        hsort_perm.mem_iff.1 he
      have he1 : e.1 ∈ (renumRep doc s).map (fun p => p.2) := by
        rw [← hheld_keys]
        exact List.mem_map_of_mem _ he'
      rw [hrem1_keys, List.mem_filter] at hker
      obtain ⟨hkt, hnmov⟩ := hker
      have hnone : repLookup (renumRep doc s) e.1 = none := by
        cases hx : repLookup (renumRep doc s) e.1 with
        | none => rfl
        | some nw =>
          exfalso
          have : (repLookup (renumRep doc s) e.1).isSome := by rw [hx]; rfl
          have := (repLookup_isSome_iff_mem_fst _ e.1).1 this
          simp [this] at hnmov
      exact hnotarget e.1 hnone hkt he1
    have hreloc : (sortHeld (removePhase (renumRep doc s) doc.objects).2).foldl
          (fun tt e => tblInsert tt e.1 e.2)
          (removePhase (renumRep doc s) doc.objects).1
        = (removePhase (renumRep doc s) doc.objects).1
          ++ sortHeld (removePhase (renumRep doc s) doc.objects).2 :=
      foldInsert_append _ _ hfresh hsort_kn
    rw [hobj_eq, tblKeys_mapValues, hreloc]
    -- left side keys, right side: the substituted sorted keys
    have hkeys_app : tblKeys ((removePhase (renumRep doc s) doc.objects).1
          ++ sortHeld (removePhase (renumRep doc s) doc.objects).2)
        = tblKeys (removePhase (renumRep doc s) doc.objects).1
          ++ tblKeys (sortHeld (removePhase (renumRep doc s) doc.objects).2) := by
      unfold tblKeys
      exact List.map_append _ _ _
    rw [hkeys_app]
    -- both sides have no duplicates
    have hnd_left : (tblKeys (removePhase (renumRep doc s) doc.objects).1
        ++ tblKeys (sortHeld (removePhase (renumRep doc s) doc.objects).2)).Nodup := by
      rw [List.nodup_append]
      refine ⟨?_, hsort_kn, ?_⟩
      · rw [hrem1_keys]
        exact hnd.filter _
      · intro a ha hb
        obtain ⟨e, he, rfl⟩ := List.mem_map.1 hb
        exact hfresh e he ha
    have hfirsts : ((sortIds (tblKeys doc.objects)).map
          (fun id => (renumPhi doc s id).1))
        = List.range' s (sortIds (tblKeys doc.objects)).length 1 := by
      apply List.ext_get
      · simp [List.length_range']
      · intro n h1 h2
        rw [List.get_map, List.get_range']
        have hn : n < (sortIds (tblKeys doc.objects)).length := by
          simpa using h1
        have h3 : applyRep (repOf (sortIds (tblKeys doc.objects)) s)
            ((sortIds (tblKeys doc.objects)).get ⟨n, hn⟩)
            = (s + n, ((sortIds (tblKeys doc.objects)).get ⟨n, hn⟩).2) :=
          applyRep_get hLnd s ⟨n, hn⟩
        show (renumPhi doc s ((sortIds (tblKeys doc.objects)).get ⟨n, hn⟩)).1 = _
        unfold renumPhi renumRep
        rw [h3]
        simp
    have hnd_right : ((sortIds (tblKeys doc.objects)).map
        (renumPhi doc s)).Nodup := by
      apply List.Nodup.of_map (fun id => id.1)
      rw [List.map_map]
      show ((sortIds (tblKeys doc.objects)).map
        (fun id => (renumPhi doc s id).1)).Nodup
      rw [hfirsts]
      exact List.nodup_range' _ _
    -- same membership
    apply List.perm_of_nodup_nodup_toFinset_eq hnd_left hnd_right
    apply Finset.ext
    intro b
    rw [List.mem_toFinset, List.mem_toFinset, List.mem_append]
    constructor
    · rintro (hb | hb)
      · rw [hrem1_keys, List.mem_filter] at hb
        obtain ⟨hkt, hnmov⟩ := hb
        have hnone : repLookup (renumRep doc s) b = none := by
          cases hx : repLookup (renumRep doc s) b with
          | none => rfl
          | some nw =>
            exfalso
            have : (repLookup (renumRep doc s) b).isSome := by rw [hx]; rfl
            have := (repLookup_isSome_iff_mem_fst _ b).1 this
            simp [this] at hnmov
        have hphi : renumPhi doc s b = b := by
          unfold renumPhi applyRep
          rw [hnone]
          rfl
        have hbL : b ∈ sortIds (tblKeys doc.objects) := hLperm.mem_iff.2 hkt
        rw [← hphi]
        exact List.mem_map_of_mem _ hbL
      · have hb' : b ∈ (renumRep doc s).map (fun p => p.2) := by
          rw [← hheld_keys]
          have hpm := hsort_perm.map (fun e => e.1)
          exact hpm.mem_iff.1 hb
        obtain ⟨p, hp, hpe⟩ := List.mem_map.1 hb'
        obtain ⟨j, hj, hjne, hpeq⟩ := repOf_mem_iff.1 hp
        have : renumPhi doc s ((sortIds (tblKeys doc.objects)).get ⟨j, hj⟩)
            = (s + j, ((sortIds (tblKeys doc.objects)).get ⟨j, hj⟩).2) :=
          applyRep_get hLnd s ⟨j, hj⟩
        rw [← hpe, hpeq]
        show (s + j, ((sortIds (tblKeys doc.objects)).get ⟨j, hj⟩).2)
          ∈ List.map (renumPhi doc s) (sortIds (tblKeys doc.objects))
        rw [← this]
        exact List.mem_map_of_mem _ (List.get_mem _ j hj)
    · intro hb
      obtain ⟨a, haL, rfl⟩ := List.mem_map.1 hb
      obtain ⟨⟨i, hi⟩, hgi⟩ := List.mem_iff_get.1 haL
      cases hrl : repLookup (renumRep doc s) a with
      | some nw =>
        right
        have hphi : renumPhi doc s a = nw := by
          unfold renumPhi applyRep
          rw [hrl]
          rfl
        have hentry : (a, nw) ∈ renumRep doc s := repLookup_entry hrl
        rw [hphi]
        have hpm := hsort_perm.map (fun e => e.1)
        apply hpm.mem_iff.2
        show nw ∈ tblKeys (removePhase (renumRep doc s) doc.objects).2
        rw [hheld_keys]
        exact List.mem_map_of_mem _ hentry
      | none =>
        left
        have hphi : renumPhi doc s a = a := by
          unfold renumPhi applyRep
          rw [hrl]
          rfl
        rw [hphi, hrem1_keys, List.mem_filter]
        refine ⟨hLperm.mem_iff.1 haL, ?_⟩
        have hnotin : ¬ a ∈ (renumRep doc s).map (fun p => p.1) := by
          intro hin
          have hsm := (repLookup_isSome_iff_mem_fst _ a).2 hin
          rw [hrl] at hsm
          cases hsm
        simpa using hnotin

theorem idLe_trans {a b c : ObjectId} (h1 : idLe a b = true)
    (h2 : idLe b c = true) : idLe a c = true := by
  unfold idLe at *
  simp only [Bool.or_eq_true, decide_eq_true_eq, Bool.and_eq_true] at *
  omega

theorem idLe_of_not {a b : ObjectId} (h : ¬ idLe a b = true) :
    idLe b a = true := by
  unfold idLe at *
  simp only [Bool.or_eq_true, decide_eq_true_eq, Bool.and_eq_true] at *
  omega

theorem sorted_insertId (x : ObjectId) (l : List ObjectId)
    (h : l.Sorted idLeR) : (insertId x l).Sorted idLeR := by
  induction l with
  | nil => simp [insertId]
  | cons y ys ih =>
    rw [List.sorted_cons] at h
    unfold insertId
    by_cases hxy : idLe x y = true
    · simp only [hxy, if_true]
      rw [List.sorted_cons]
      constructor
      · intro b hb
        rcases List.mem_cons.1 hb with rfl | hb
        · exact hxy
        · exact idLe_trans hxy (h.1 b hb)
      · rw [List.sorted_cons]
        exact h
    · simp only [hxy, if_false, Bool.false_eq_true]
      rw [List.sorted_cons]
      constructor
      · intro b hb
        have hb' := (insertId_perm x ys).mem_iff.1 hb
        rcases List.mem_cons.1 hb' with rfl | hb'
        · exact idLe_of_not hxy
        · exact h.1 b hb'
      · exact ih h.2

theorem sortIds_sorted (l : List ObjectId) : (sortIds l).Sorted idLeR := by
  induction l with
  | nil => simp [sortIds]
  | cons x xs ih => exact sorted_insertId x _ ih

/-- `sortIds` computes the unique sorted arrangement. -/
theorem sortIds_eq_of_sorted (l m : List ObjectId)
    (hp : List.Perm l m) (hm : m.Sorted idLeR) : sortIds l = m :=
  List.eq_of_perm_of_sorted ((sortIds_perm l).trans hp) (sortIds_sorted l) hm

/-- A list already carrying the sequential numbers produces an empty
substitution. -/
theorem repOf_eq_nil (ids : List ObjectId) (s : Nat)
    (h : ∀ i, ∀ hi : i < ids.length, (ids.get ⟨i, hi⟩).1 = s + i) :
    repOf ids s = [] := by
  induction ids generalizing s with
  | nil => rfl
  | cons id rest ih =>
    unfold repOf
    have h0 : id.1 = s := by simpa using h 0 (by simp)
    simp only [h0, ne_eq, not_true_eq_false, if_false, List.nil_append]
    apply ih
    intro i hi
    have h1 := h (i + 1) (by simpa using hi)
    have h2 : (rest.get ⟨i, hi⟩).1 = s + (i + 1) := h1
    rw [h2]
    omega

mutual
/-- The empty substitution rewrites nothing. -/
theorem renumObject_nil : ∀ o, renumObject [] o = o
  | .null => rfl
  | .boolean _ => rfl
  | .integer _ => rfl
  | .real _ => rfl
  | .string _ _ => rfl
  | .name _ => rfl
  | .array xs => by rw [renumObject, renumList_nil xs]
  | .dictionary es => by rw [renumObject, renumEntries_nil es]
  | .stream d c a => by rw [renumObject, renumEntries_nil d]
  | .reference id => by
    rw [renumObject]
    show Object.reference (applyRep [] id) = _
    rfl

/-- `renumObject_nil` over sequence elements. -/
theorem renumList_nil : ∀ xs, renumList [] xs = xs
  | [] => rfl
  | x :: xs => by rw [renumList, renumObject_nil x, renumList_nil xs]

/-- `renumObject_nil` over mapping entries. -/
theorem renumEntries_nil : ∀ es, renumEntries [] es = es
  | [] => rfl
  | e :: es => by
    rw [renumEntries, renumObject_nil e.2, renumEntries_nil es]

end

/-- Rewriting references commutes with collecting them: the references of a
rewritten value are the substituted references of the original. -/
theorem refsIn_renum (rep : List (ObjectId × ObjectId)) :
    ∀ o, refsIn (renumObject rep o) = (refsIn o).map (applyRep rep) := by
  have main := Object.indOn
    (fun o => refsIn (renumObject rep o) = (refsIn o).map (applyRep rep))
    (fun xs => refsInList (renumList rep xs) = (refsInList xs).map (applyRep rep))
    (fun es => refsInEntries (renumEntries rep es)
      = (refsInEntries es).map (applyRep rep))
  apply main
  case hnull => rfl
  case hbool => intro b; rfl
  case hint => intro i; rfl
  case hreal => intro r; rfl
  case hstr => intro a f; rfl
  case hname => intro n; rfl
  case harr => intro xs ih; simpa [renumObject, refsIn] using ih
  case hdict => intro es ih; simpa [renumObject, refsIn] using ih
  case hstream => intro d c a ih; simpa [renumObject, refsIn] using ih
  case href => intro i; rfl
  case hqnil => rfl
  case hqcons =>
    intro x xs ihx ihxs
    show refsIn (renumObject rep x) ++ refsInList (renumList rep xs)
      = (refsIn x ++ refsInList xs).map (applyRep rep)
    rw [ihx, ihxs, List.map_append]
  case hrnil => rfl
  case hrcons =>
    intro k v es ihv ihes
    show refsIn (renumObject rep v) ++ refsInEntries (renumEntries rep es)
      = (refsIn v ++ refsInEntries es).map (applyRep rep)
    rw [ihv, ihes, List.map_append]

/-- The maximum-id counter after renumbering (the `new_id - 1` unsigned
subtraction). -/
theorem renumber_maxId (doc : Document) (s : Nat) :
    (doc.renumber_objects_with s).maxId
      = (s + doc.objects.length + (u32Mod - 1)) % u32Mod := by
  unfold Document.renumber_objects_with
  simp only
  rw [buildReplace_snd]
  have hlen : (sortIds (tblKeys doc.objects)).length = doc.objects.length := by
    rw [sortIds_length]
    exact List.length_map _ _
  cases hE : (sortIds (tblKeys doc.objects)).isEmpty with
  | false =>
    simp only [Bool.false_eq_true, if_false]
    rw [hlen, Nat.mod_add_mod]
  | true =>
    have h0 : doc.objects.length = 0 := by
      rw [← hlen]
      exact List.length_eq_zero.2 (List.isEmpty_iff.1 hE)
    simp [h0]

/-- Renumbering a table whose sorted identities already carry the
sequential numbers leaves the objects and the trailer untouched. -/
theorem renumber_fixed (d : Document) (s : Nat)
    (hbound : s + d.objects.length ≤ u32Mod)
    (hfix : ∀ i, ∀ hi : i < (sortIds (tblKeys d.objects)).length,
      ((sortIds (tblKeys d.objects)).get ⟨i, hi⟩).1 = s + i) :
    (d.renumber_objects_with s).objects = d.objects ∧
    (d.renumber_objects_with s).trailer = d.trailer := by
  have hrep : (buildReplace (sortIds (tblKeys d.objects)) s).1 = [] := by
    have hlen : (sortIds (tblKeys d.objects)).length = d.objects.length := by
      rw [sortIds_length]
      exact List.length_map _ _
    rw [buildReplace_fst _ _ (by rw [hlen]; exact hbound)]
    exact repOf_eq_nil _ s hfix
  constructor
  · show ((sortHeld (removePhase (buildReplace (sortIds (tblKeys d.objects)) s).1
        d.objects).2).foldl (fun tt e => tblInsert tt e.1 e.2)
        (removePhase (buildReplace (sortIds (tblKeys d.objects)) s).1
          d.objects).1).map
      (fun e => (e.1, renumObject
        (buildReplace (sortIds (tblKeys d.objects)) s).1 e.2)) = d.objects
    rw [hrep]
    show d.objects.map (fun e => (e.1, renumObject [] e.2)) = d.objects
    have hcg : d.objects.map (fun e => (e.1, renumObject [] e.2))
        = d.objects.map (fun e => e) := by
      apply List.map_congr_left
      intro e _
      rw [renumObject_nil]
    rw [hcg, List.map_id']
  · show renumEntries (buildReplace (sortIds (tblKeys d.objects)) s).1
        d.trailer = d.trailer
    rw [hrep, renumEntries_nil]

/-! ## Claim theorems -/

/-- Claim C9: after `renumber_objects_with startingId`, the maximum-id
counter equals the last assigned object number — `new_id - 1` as an
unsigned 32-bit subtraction, i.e. starting id plus the number of table
objects minus one, reduced modulo `2^32`, the wrap biting exactly when the
table is empty and the starting id is 0. -/
theorem claim_C9_maxid (doc : Document) (s : Nat) :
    (doc.renumber_objects_with s).maxId
      = (s + doc.objects.length + (u32Mod - 1)) % u32Mod :=
  renumber_maxId doc s

theorem idLeR_of_lt_fst {a b : ObjectId} (h : a.1 < b.1) : idLeR a b := by
  unfold idLeR idLe
  simp [h]

/-- Claim C4: renumbering from 1 twice in succession, with no intervening
mutation, leaves the identity set of the object table identical after the
two calls (proved as equality of the key lists themselves: the second call
does not move a single object). -/
theorem claim_C4_renumber_idempotent (doc : Document)
    (hnd : (tblKeys doc.objects).Nodup)
    (hbound : 1 + doc.objects.length ≤ u32Mod) :
    tblKeys ((doc.renumber_objects).renumber_objects).objects
      = tblKeys (doc.renumber_objects).objects := by
  unfold Document.renumber_objects
  obtain ⟨hlook, hkeys, htr, hvals⟩ := renumber_core doc 1 hnd hbound
  have hLnd : (sortIds (tblKeys doc.objects)).Nodup :=
    (sortIds_perm _).nodup_iff.2 hnd
  have hval : ∀ k : Fin (sortIds (tblKeys doc.objects)).length,
      renumPhi doc 1 ((sortIds (tblKeys doc.objects)).get k)
        = (1 + k.1, ((sortIds (tblKeys doc.objects)).get k).2) := by
    intro k
    have h3 := applyRep_get hLnd 1 k
    show renumPhi doc 1 _ = _
    unfold renumPhi renumRep
    exact h3
  have hsorted : ((sortIds (tblKeys doc.objects)).map (renumPhi doc 1)).Sorted
      idLeR := by
    rw [List.Sorted, List.pairwise_iff_get]
    intro i j hij
    rw [List.get_map, List.get_map, hval, hval]
    have hij' : (i : Nat) < (j : Nat) := hij
    exact idLeR_of_lt_fst (Nat.add_lt_add_left hij' 1)
  have hK1sort : sortIds (tblKeys (doc.renumber_objects_with 1).objects)
      = (sortIds (tblKeys doc.objects)).map (renumPhi doc 1) :=
    sortIds_eq_of_sorted _ _ hkeys hsorted
  have hlen1 : (doc.renumber_objects_with 1).objects.length
      = doc.objects.length := by
    have h1 := hkeys.length_eq
    rw [List.length_map, sortIds_length] at h1
    have h2 : (tblKeys (doc.renumber_objects_with 1).objects).length
        = (doc.renumber_objects_with 1).objects.length := List.length_map _ _
    have h3 : (tblKeys doc.objects).length = doc.objects.length :=
      List.length_map _ _
    omega
  have hfix : ∀ i, ∀ hi : i <
      (sortIds (tblKeys (doc.renumber_objects_with 1).objects)).length,
      ((sortIds (tblKeys (doc.renumber_objects_with 1).objects)).get
        ⟨i, hi⟩).1 = 1 + i := by
    rw [hK1sort]
    intro i hi
    rw [List.get_map, hval]
  have hfixed := renumber_fixed (doc.renumber_objects_with 1) 1
    (by rw [hlen1]; exact hbound) hfix
  rw [hfixed.1]

/-- Claim C4 (witness): a one-object document with a non-sequential
identity. -/
theorem claim_C4_witness :
    (tblKeys (Document.mk [((3,0), .null)] [] 3).objects).Nodup ∧
    tblKeys (((Document.mk [((3,0), .null)] [] 3).renumber_objects).renumber_objects).objects
      = tblKeys ((Document.mk [((3,0), .null)] [] 3).renumber_objects).objects :=
  ⟨by decide,
   claim_C4_renumber_idempotent (Document.mk [((3,0), .null)] [] 3)
     (by decide) (by decide)⟩

/-- The identities `prune_objects` returns are exactly the unreachable
table keys. -/
theorem prune_mem (d : Document) (id : ObjectId) :
    id ∈ (d.prune_objects).2 ↔
      (id ∈ tblKeys d.objects ∧ ¬ Reachable d id) := by
  unfold Document.prune_objects
  simp [List.mem_filter, decide_eq_true_iff, reachable_iff_Reachable]

/-- Lookup in the pruned table: removed identities are gone, every other
lookup is untouched. -/
theorem prune_lookup (d : Document) (id : ObjectId) :
    tblLookup (d.prune_objects).1.objects id
      = if id ∈ (d.prune_objects).2 then none else tblLookup d.objects id := by
  unfold Document.prune_objects
  exact tblLookup_foldRemove _ _ id

/-- Claim C2: `prune_objects` removes exactly the identities present in
the table that are not reachable from the trailer through any chain of
references/containers, and returns that set: (a) the returned list holds an
identity exactly when it is a table key that is unreachable; (b) the lookup
of a reachable identity is untouched while the lookup of an unreachable one
fails afterwards; (c) a second consecutive call with no intervening
mutation removes nothing, returns the empty list and leaves the document
unchanged. -/
theorem claim_C2_prune (doc : Document) :
    (∀ id, id ∈ (doc.prune_objects).2 ↔
      (id ∈ tblKeys doc.objects ∧ ¬ Reachable doc id)) ∧
    (∀ id,
      (Reachable doc id →
        tblLookup (doc.prune_objects).1.objects id = tblLookup doc.objects id) ∧
      (¬ Reachable doc id →
        tblLookup (doc.prune_objects).1.objects id = none)) ∧
    (doc.prune_objects).1.prune_objects = ((doc.prune_objects).1, []) := by
  have htrailer : (doc.prune_objects).1.trailer = doc.trailer := rfl
  have hb : ∀ id,
      (Reachable doc id →
        tblLookup (doc.prune_objects).1.objects id = tblLookup doc.objects id) ∧
      (¬ Reachable doc id →
        tblLookup (doc.prune_objects).1.objects id = none) := by
    intro id
    constructor
    · intro hre
      rw [prune_lookup doc id, if_neg]
      intro hin
      exact ((prune_mem doc id).1 hin).2 hre
    · intro hnre
      by_cases hk : id ∈ tblKeys doc.objects
      · rw [prune_lookup doc id, if_pos ((prune_mem doc id).2 ⟨hk, hnre⟩)]
      · rw [prune_lookup doc id]
        have hnone : tblLookup doc.objects id = none := by
          cases hx : tblLookup doc.objects id with
          | none => rfl
          | some o => exact absurd (lookup_some_mem_keys hx) hk
        by_cases hin : id ∈ (doc.prune_objects).2 <;> simp [hin, hnone]
  refine ⟨prune_mem doc, hb, ?_⟩
  have hbwd : ∀ a, Reachable doc a → Reachable (doc.prune_objects).1 a := by
    intro a h
    induction h with
    | trailer hm => exact Reachable.trailer (htrailer ▸ hm)
    | @step id id' o hre hlo hr ih =>
      have hlo' : tblLookup (doc.prune_objects).1.objects id = some o := by
        rw [prune_lookup doc id, if_neg]
        · exact hlo
        · intro hin
          exact ((prune_mem doc id).1 hin).2 hre
      exact Reachable.step ih hlo' hr
  have hids2 : ((doc.prune_objects).1.prune_objects).2 = [] := by
    rw [List.eq_nil_iff_forall_not_mem]
    intro a ha
    rcases (prune_mem _ a).1 ha with ⟨hak, hnr⟩
    apply hnr
    apply hbwd
    obtain ⟨o, ho⟩ := mem_keys_lookup_some hak
    rw [prune_lookup doc a] at ho
    by_cases hin : a ∈ (doc.prune_objects).2
    · rw [if_pos hin] at ho; cases ho
    · rw [if_neg hin] at ho
      have hk : a ∈ tblKeys doc.objects := lookup_some_mem_keys ho
      by_contra hnra
      exact hin ((prune_mem doc a).2 ⟨hk, hnra⟩)
  have h1 : ((doc.prune_objects).1.prune_objects).1 = (doc.prune_objects).1 := by
    show { (doc.prune_objects).1 with
        objects := ((doc.prune_objects).1.prune_objects).2.foldl
          (fun t i => tblRemove t i) (doc.prune_objects).1.objects }
      = (doc.prune_objects).1
    rw [hids2]
    rfl
  exact Prod.ext h1 hids2

/-- Claim C1 (counterexample): the claim that after `delete_object id` no
sequence element anywhere references the identity is false as stated — in a
document whose object (1,0) is the sequence holding two references to
(2,0), deleting (2,0) removes only the first occurrence and the scrubbed
sequence still contains a reference to (2,0). -/
theorem claim_C1_counterexample :
    docRefClean (2,0)
      ((Document.mk
        [((1,0), .array [.reference (2,0), .reference (2,0)]), ((2,0), .null)]
        [] 2).delete_object (2,0)).1 = false := by decide

/-- Claim C1 (amended): after `delete_object id`, (a) no mapping node
anywhere in the document — the trailer mapping itself and nested mappings
included, a stream's own top-level mapping excepted — retains an entry
whose value is a reference to `id`; (b) the object is removed from the
table; (c) within each sequence only the first direct reference to `id` is
deleted: the scrub of a sequence removes exactly one direct reference when
at least one is present, and none otherwise. -/
theorem claim_C1_amended (doc : Document) (id : ObjectId) :
    docNoDictRef id (doc.delete_object id).1 = true ∧
    tblLookup (doc.delete_object id).1.objects id = none ∧
    (∀ xs, countTopRefs id (scrubElems id xs) + min 1 (countTopRefs id xs)
      = countTopRefs id xs) := by
  refine ⟨?_, ?_, fun xs => countTopRefs_scrubElems id xs⟩
  · have htr := scrubEntries_clean id doc.trailer
    have hobj2 : ((tblRemove (doc.objects.map
          (fun e => (e.1, scrubObject id e.2))) id).all
        (fun e => noDictRef id e.2)) = true := by
      rw [List.all_eq_true]
      intro e he
      have he2 : e ∈ doc.objects.map (fun e => (e.1, scrubObject id e.2)) :=
        List.mem_of_mem_filter he
      obtain ⟨f, hf, rfl⟩ := List.mem_map.1 he2
      exact scrub_noDictRef id f.2
    simp [Document.delete_object, docNoDictRef, htr.1, htr.2, hobj2]
  · exact tblLookup_remove_self _ id

/-- Claim C7: the specification demands that no operation terminate the
process on malformed input, but `list_attachments` reaches
`catalog().unwrap()` — on a document whose trailer has no resolvable
catalog (here: an empty trailer) the source panics instead of returning a
recoverable outcome. -/
theorem claim_C7_code_bug :
    (Document.mk [] [] 0).list_attachments = .panicked := by decide

/-- Claim C10: `extract_stream_to_path` creates (or truncates) the output
file before looking the stream up — a create failure is reported before any
lookup — and when the identity is absent from the table or names a
non-stream object the operation still succeeds, leaving the created file
empty with no bytes written. -/
theorem claim_C10_extract (doc : Document) (sid : ObjectId) (dec : Bool)
    (h : lookupIsStream doc.objects sid = false) :
    doc.extract_stream_to_path sid dec true = .written [] ∧
    doc.extract_stream_to_path sid dec false = .ioError := by
  constructor
  · unfold Document.extract_stream_to_path
    unfold lookupIsStream at h
    cases hx : tblLookup doc.objects sid with
    | none => simp
    | some o =>
      rw [hx] at h
      cases o with
      | stream d c a => simp at h
      | null => simp
      | boolean b => simp
      | integer i => simp
      | real r => simp
      | string s f => simp
      | name n => simp
      | array xs => simp
      | dictionary es => simp
      | reference i => simp
  · rfl

/-- Claim C10 (witness): a concrete document where the identity names a
non-stream object. -/
theorem claim_C10_extract_witness :
    lookupIsStream (Document.mk [((1,0), .null)] [] 1).objects (1,0) = false ∧
    (Document.mk [((1,0), .null)] [] 1).extract_stream_to_path (1,0) true true
      = .written [] :=
  ⟨by decide, (claim_C10_extract (Document.mk [((1,0), .null)] [] 1) (1,0) true
      (by decide)).1⟩

/-- `refsIn_renum` over mapping entries. -/
theorem refsInEntries_renum (rep : List (ObjectId × ObjectId)) :
    ∀ es, refsInEntries (renumEntries rep es)
      = (refsInEntries es).map (applyRep rep)
  | [] => rfl
  | e :: es => by
    show refsIn (renumObject rep e.2) ++ refsInEntries (renumEntries rep es)
      = (refsIn e.2 ++ refsInEntries es).map (applyRep rep)
    rw [refsIn_renum, refsInEntries_renum rep es, ← List.map_append]

/-- Claim C3 (counterexample): the claim is false as stated — in a document
holding a dangling reference (9,9) in its trailer, renumbering neither makes
that reference resolve (the relocation map only covers identities present
in the table), nor leaves the multiset of (content, generation) pairs
reachable from the trailer unchanged (reachable contents are rewritten:
the sequence holding a reference to (3,0) now references (2,0)). -/
theorem claim_C3_counterexample :
    docResolves ((Document.mk
      [((2,0), .array [.reference (3,0)]), ((3,0), .null)]
      [("Root", .reference (2,0)), ("Info", .reference (9,9))]
      3).renumber_objects) = false ∧
    ¬ List.Perm
      (reachTablePairs ((Document.mk
        [((2,0), .array [.reference (3,0)]), ((3,0), .null)]
        [("Root", .reference (2,0)), ("Info", .reference (9,9))]
        3).renumber_objects))
      (reachTablePairs (Document.mk
        [((2,0), .array [.reference (3,0)]), ((3,0), .null)]
        [("Root", .reference (2,0)), ("Info", .reference (9,9))]
        3)) := by decide

/-- Claim C3 (amended): after `renumber_objects_with s` on a document with
distinct identities whose count stays below the counter modulus: (a) the
lookup of each relocated identity yields the rewritten original object;
(b) the table keys become exactly the relocations of the sorted original
identities; (c) the i-th identity in sorted order is relocated to number
s+i with its generation untouched — relative order is preserved; (d) an
identity whose number already equals its assigned sequential number is not
relocated; (e) resolution is preserved, not created: if every reference
value resolved before the call, every reference value resolves after it
(a dangling reference stays dangling, so the unconditional claim fails). -/
theorem claim_C3_amended (doc : Document) (s : Nat)
    (hnd : (tblKeys doc.objects).Nodup)
    (hbound : s + doc.objects.length ≤ u32Mod) :
    (∀ id ∈ tblKeys doc.objects,
      tblLookup (doc.renumber_objects_with s).objects (renumPhi doc s id)
        = Option.map (renumObject (renumRep doc s)) (tblLookup doc.objects id)) ∧
    List.Perm (tblKeys (doc.renumber_objects_with s).objects)
      ((sortIds (tblKeys doc.objects)).map (renumPhi doc s)) ∧
    (∀ k : Fin (sortIds (tblKeys doc.objects)).length,
      renumPhi doc s ((sortIds (tblKeys doc.objects)).get k)
        = (s + k.1, ((sortIds (tblKeys doc.objects)).get k).2)) ∧
    (∀ k : Fin (sortIds (tblKeys doc.objects)).length,
      ((sortIds (tblKeys doc.objects)).get k).1 = s + k.1 →
      renumPhi doc s ((sortIds (tblKeys doc.objects)).get k)
        = (sortIds (tblKeys doc.objects)).get k) ∧
    (docResolves doc = true →
      docResolves (doc.renumber_objects_with s) = true) := by
  obtain ⟨hlook, hkeys, htr, hvals⟩ := renumber_core doc s hnd hbound
  have hLnd : (sortIds (tblKeys doc.objects)).Nodup :=
    (sortIds_perm _).nodup_iff.2 hnd
  have hval : ∀ k : Fin (sortIds (tblKeys doc.objects)).length,
      renumPhi doc s ((sortIds (tblKeys doc.objects)).get k)
        = (s + k.1, ((sortIds (tblKeys doc.objects)).get k).2) := by
    intro k
    have h3 := applyRep_get hLnd s k
    show renumPhi doc s _ = _
    unfold renumPhi renumRep
    exact h3
  refine ⟨hlook, hkeys, hval, ?_, ?_⟩
  · intro k hk
    rw [hval k, ← hk]
  · intro hres
    unfold docResolves at hres ⊢
    rw [List.all_eq_true] at hres ⊢
    intro r hr
    have hr' : ∃ r0 ∈ docRefs doc, r = renumPhi doc s r0 := by
      unfold docRefs at hr
      rcases List.mem_append.1 hr with hrt | hro
      · rw [htr, refsInEntries_renum] at hrt
        obtain ⟨r0, hr0, rfl⟩ := List.mem_map.1 hrt
        exact ⟨r0, List.mem_append.2 (Or.inl hr0), rfl⟩
      · obtain ⟨l, hl, hrl⟩ := List.mem_flatten.1 hro
        obtain ⟨e, he, rfl⟩ := List.mem_map.1 hl
        obtain ⟨f, hf, hef⟩ := hvals e he
        rw [hef, refsIn_renum] at hrl
        obtain ⟨r0, hr0, rfl⟩ := List.mem_map.1 hrl
        refine ⟨r0, List.mem_append.2 (Or.inr ?_), rfl⟩
        exact List.mem_flatten.2 ⟨refsIn f.2, List.mem_map.2 ⟨f, hf, rfl⟩, hr0⟩
    obtain ⟨r0, hr0, rfl⟩ := hr'
    have hk0 : r0 ∈ tblKeys doc.objects := by
      have h := hres r0 hr0
      simpa using h
    obtain ⟨o, ho⟩ := mem_keys_lookup_some hk0
    have hl2 := hlook r0 hk0
    rw [ho] at hl2
    have hmem : renumPhi doc s r0
        ∈ tblKeys (doc.renumber_objects_with s).objects :=
      lookup_some_mem_keys hl2
    simpa using hmem

/-- Claim C3 (witness): a single-object document with a resolving trailer
reference, renumbered from 1. -/
theorem claim_C3_amended_witness :
    (tblKeys (Document.mk [((3,0), .null)]
      [("Root", .reference (3,0))] 3).objects).Nodup ∧
    docResolves ((Document.mk [((3,0), .null)]
      [("Root", .reference (3,0))] 3).renumber_objects_with 1) = true :=
  ⟨by decide,
   (claim_C3_amended (Document.mk [((3,0), .null)]
      [("Root", .reference (3,0))] 3) 1 (by decide) (by decide)).2.2.2.2
     (by decide)⟩

/-- Inserting at a key already present leaves the key list unchanged. -/
theorem tblKeys_insert_of_mem (t : Table) (k : ObjectId) (v : Object)
    (h : k ∈ tblKeys t) : tblKeys (tblInsert t k v) = tblKeys t := by
  unfold tblInsert
  have hA : t.any (fun e => e.1 = k) = true := by
    obtain ⟨e, he, hek⟩ := List.mem_map.1 h
    exact List.any_eq_true.2 ⟨e, he, by simp [hek]⟩
  rw [if_pos hA]
  unfold tblKeys
  rw [List.map_map]
  apply List.map_congr_left
  intro e he
  by_cases hek : e.1 = k
  · simp [Function.comp, hek]
  · simp [Function.comp, hek]

/-- `change_content_stream` works in place: the trailer, the counter and
the key list are untouched, whatever the identity names. -/
theorem change_content_stream_inplace (doc : Document) (cid : ObjectId)
    (content : List Nat) :
    (doc.change_content_stream cid content).trailer = doc.trailer ∧
    (doc.change_content_stream cid content).maxId = doc.maxId ∧
    tblKeys (doc.change_content_stream cid content).objects
      = tblKeys doc.objects := by
  unfold Document.change_content_stream
  cases hl : tblLookup doc.objects cid with
  | none => exact ⟨rfl, rfl, rfl⟩
  | some o =>
    cases o
    case stream d c a =>
      exact ⟨rfl, rfl, tblKeys_insert_of_mem _ _ _ (lookup_some_mem_keys hl)⟩
    all_goals exact ⟨rfl, rfl, rfl⟩

/-- The allocation branch of `change_page_content`: a Contents sequence of
length other than one mints the identity (maxId+1 mod 2^32, 0), stores a
brand-new stream holding the given bytes under it, and repoints the page's
Contents entry at it. -/
theorem change_page_content_alloc (doc : Document) (pageId : ObjectId)
    (content : List Nat) (es : Dict) (xs : List Object)
    (hpage : tblLookup doc.objects pageId = some (.dictionary es))
    (hc : dictGet es "Contents" = some (.array xs))
    (hlen : xs.length ≠ 1)
    (hneq : pageId ≠ ((doc.maxId + 1) % u32Mod, 0)) :
    doc.change_page_content pageId content
      = (Document.mk
          (tblInsert
            (tblInsert doc.objects ((doc.maxId + 1) % u32Mod, 0)
              (streamNew [] content)) pageId
            (.dictionary (dictSet es "Contents"
              (.reference ((doc.maxId + 1) % u32Mod, 0)))))
          doc.trailer
          ((doc.maxId + 1) % u32Mod), none) := by
  have hl1 : tblLookup (tblInsert doc.objects ((doc.maxId + 1) % u32Mod, 0)
      (streamNew [] content)) pageId = some (.dictionary es) := by
    rw [tblLookup_insert, if_neg hneq, hpage]
  rcases xs with _ | ⟨x, xs2⟩
  · simp only [Document.change_page_content, hpage, Object.asDict, hc,
      Document.add_object, Document.new_object_id, hl1]
  · rcases xs2 with _ | ⟨y, rest⟩
    · simp at hlen
    · simp only [Document.change_page_content, hpage, Object.asDict, hc,
        Document.add_object, Document.new_object_id, hl1]

/-- Claim C6 (counterexample): the claim that every case other than
"exactly one stream referenced" allocates a new stream and repoints the
Contents entry is false as stated — on a page whose Contents is a
one-element sequence holding a non-reference, the source's inner `if let`
has no else branch: the document is returned entirely unchanged, no stream
is allocated, and the call still reports success. -/
theorem claim_C6_counterexample :
    (Document.mk [((1,0), .dictionary [("Contents", .array [.integer 5])])]
      [] 1).change_page_content (1,0) [7]
      = (Document.mk [((1,0), .dictionary [("Contents", .array [.integer 5])])]
          [] 1, none) := by decide

/-- Claim C6 (amended): on a page whose Contents entry is found: (a) a
direct reference, and (b) a one-element sequence holding a reference, are
replaced through the in-place stream rewrite; (c) a one-element sequence
holding a non-reference changes nothing yet still succeeds; (d) a sequence
of any other length allocates a brand-new stream under the fresh identity
(maxId+1 mod 2^32, 0) holding exactly the given bytes, repoints the page's
Contents at it alone, and leaves every other object — the previously
referenced streams included — in the table untouched as orphans;  (e) a
Contents value of any other kind changes nothing yet still succeeds; and
(f) the in-place rewrite allocates nothing: trailer, counter and key list
are untouched by it. -/
theorem claim_C6_amended (doc : Document) (pageId : ObjectId)
    (content : List Nat) (es : Dict) (cv : Object)
    (hpage : tblLookup doc.objects pageId = some (.dictionary es))
    (hc : dictGet es "Contents" = some cv) :
    (∀ cid, cv = .reference cid →
      doc.change_page_content pageId content
        = (doc.change_content_stream cid content, none)) ∧
    (∀ x cid, cv = .array [x] → x.asReference = some cid →
      doc.change_page_content pageId content
        = (doc.change_content_stream cid content, none)) ∧
    (∀ x, cv = .array [x] → x.asReference = none →
      doc.change_page_content pageId content = (doc, none)) ∧
    (∀ xs, cv = .array xs → xs.length ≠ 1 →
      pageId ≠ ((doc.maxId + 1) % u32Mod, 0) →
      (doc.change_page_content pageId content).2 = none ∧
      tblLookup (doc.change_page_content pageId content).1.objects
          ((doc.maxId + 1) % u32Mod, 0) = some (streamNew [] content) ∧
      tblLookup (doc.change_page_content pageId content).1.objects pageId
        = some (.dictionary (dictSet es "Contents"
            (.reference ((doc.maxId + 1) % u32Mod, 0)))) ∧
      (∀ id, id ≠ pageId → id ≠ ((doc.maxId + 1) % u32Mod, 0) →
        tblLookup (doc.change_page_content pageId content).1.objects id
          = tblLookup doc.objects id)) ∧
    ((∀ cid, cv ≠ .reference cid) → (∀ xs, cv ≠ .array xs) →
      doc.change_page_content pageId content = (doc, none)) ∧
    (∀ cid, (doc.change_content_stream cid content).trailer = doc.trailer ∧
      (doc.change_content_stream cid content).maxId = doc.maxId ∧
      tblKeys (doc.change_content_stream cid content).objects
        = tblKeys doc.objects) := by
  refine ⟨?_, ?_, ?_, ?_, ?_, fun cid => change_content_stream_inplace doc cid content⟩
  · intro cid hcv
    subst hcv
    simp only [Document.change_page_content, hpage, Object.asDict, hc]
  · intro x cid hcv hx
    subst hcv
    simp only [Document.change_page_content, hpage, Object.asDict, hc, hx]
  · intro x hcv hx
    subst hcv
    simp only [Document.change_page_content, hpage, Object.asDict, hc, hx]
  · intro xs hcv hlen hneq
    subst hcv
    have halloc := change_page_content_alloc doc pageId content es xs
      hpage hc hlen hneq
    refine ⟨by rw [halloc], ?_, ?_, ?_⟩
    · rw [halloc]
      show tblLookup (tblInsert (tblInsert doc.objects
        ((doc.maxId + 1) % u32Mod, 0) (streamNew [] content)) pageId
        (.dictionary (dictSet es "Contents"
          (.reference ((doc.maxId + 1) % u32Mod, 0)))))
        ((doc.maxId + 1) % u32Mod, 0) = _
      rw [tblLookup_insert, if_neg (Ne.symm hneq), tblLookup_insert,
        if_pos rfl]
    · rw [halloc]
      show tblLookup (tblInsert (tblInsert doc.objects
        ((doc.maxId + 1) % u32Mod, 0) (streamNew [] content)) pageId
        (.dictionary (dictSet es "Contents"
          (.reference ((doc.maxId + 1) % u32Mod, 0))))) pageId = _
      rw [tblLookup_insert, if_pos rfl]
    · intro id hid1 hid2
      rw [halloc]
      show tblLookup (tblInsert (tblInsert doc.objects
        ((doc.maxId + 1) % u32Mod, 0) (streamNew [] content)) pageId
        (.dictionary (dictSet es "Contents"
          (.reference ((doc.maxId + 1) % u32Mod, 0))))) id = _
      rw [tblLookup_insert, if_neg hid1, tblLookup_insert, if_neg hid2]
  · intro hnr hna
    cases cv
    case reference cid => exact absurd rfl (hnr cid)
    case array xs => exact absurd rfl (hna xs)
    all_goals simp only [Document.change_page_content, hpage, Object.asDict, hc]

/-- Claim C6 (witness): a page whose Contents is a direct reference to a
stream. -/
theorem claim_C6_amended_witness :
    tblLookup (Document.mk
      [((1,0), .dictionary [("Contents", .reference (2,0))]),
       ((2,0), Object.stream [] [] true)] [] 2).objects (1,0)
      = some (.dictionary [("Contents", .reference (2,0))]) ∧
    (Document.mk
      [((1,0), .dictionary [("Contents", .reference (2,0))]),
       ((2,0), Object.stream [] [] true)] [] 2).change_page_content (1,0) [7]
      = ((Document.mk
          [((1,0), .dictionary [("Contents", .reference (2,0))]),
           ((2,0), Object.stream [] [] true)] [] 2).change_content_stream
            (2,0) [7], none) :=
  ⟨by decide,
   (claim_C6_amended (Document.mk
      [((1,0), .dictionary [("Contents", .reference (2,0))]),
       ((2,0), Object.stream [] [] true)] [] 2) (1,0) [7]
      [("Contents", .reference (2,0))] (.reference (2,0))
      (by decide) (by decide)).1 (2,0) rfl⟩

/-- Dictionary lookup after a `cons`. -/
theorem dictGet_cons (e : String × Object) (es : Dict) (k : String) :
    dictGet (e :: es) k = if e.1 = k then some e.2 else dictGet es k := by
  unfold dictGet
  by_cases h : e.1 = k
  · rw [List.find?_cons_of_pos _ (by simp [h]), if_pos h]
    rfl
  · rw [List.find?_cons_of_neg _ (by simp [h]), if_neg h]

/-- Lookup through the in-place replacement pass of `dictSet`. -/
theorem dictGet_mapReplace (es : Dict) (k k' : String) (v : Object) :
    dictGet (es.map (fun e => if e.1 = k then (k, v) else e)) k'
      = if k' = k then (if es.any (fun e => e.1 = k) then some v else none)
        else dictGet es k' := by
  induction es with
  | nil => by_cases h : k' = k <;> simp [dictGet, h]
  | cons e es ih =>
    rw [List.map_cons]
    by_cases he : e.1 = k
    · by_cases h : k' = k
      · subst h
        rw [if_pos he, dictGet_cons]
        have hany : ((e :: es).any (fun e => e.1 = k')) = true :=
          List.any_eq_true.2 ⟨e, by simp, by simp [he]⟩
        rw [if_pos rfl, if_pos rfl, if_pos hany]
      · have hek' : ¬ e.1 = k' := by rw [he]; exact fun hh => h hh.symm
        rw [if_pos he, dictGet_cons, if_neg (show ¬ (k, v).1 = k' from
          fun hh => h hh.symm), ih, if_neg h, if_neg h, dictGet_cons,
          if_neg hek']
    · by_cases h : k' = k
      · subst h
        have hek' : ¬ e.1 = k' := he
        rw [if_neg he, dictGet_cons, if_neg hek', ih, if_pos rfl, if_pos rfl]
        have hany : ((e :: es).any (fun x => x.1 = k'))
            = (es.any (fun x => x.1 = k')) := by
          simp [List.any_cons, he]
        rw [hany]
      · rw [if_neg he, dictGet_cons, ih, if_neg h, if_neg h, dictGet_cons]

/-- Lookup through the append pass of `dictSet` on a key-free dictionary. -/
theorem dictGet_append_single (es : Dict) (k k' : String) (v : Object)
    (hA : es.any (fun e => e.1 = k) = false) :
    dictGet (es ++ [(k, v)]) k' = if k' = k then some v else dictGet es k' := by
  induction es with
  | nil =>
    rw [List.nil_append, dictGet_cons]
    by_cases h : k' = k
    · rw [if_pos (show (k, v).1 = k' from h.symm), if_pos h]
    · rw [if_neg (show ¬ (k, v).1 = k' from fun hh => h hh.symm), if_neg h]
  | cons e es ih =>
    have hA' : es.any (fun e => e.1 = k) = false := by
      rw [List.any_cons] at hA
      exact (Bool.or_eq_false_iff.1 hA).2
    have he : ¬ e.1 = k := by
      rw [List.any_cons] at hA
      have := (Bool.or_eq_false_iff.1 hA).1
      simpa using this
    rw [List.cons_append, dictGet_cons, dictGet_cons, ih hA']
    by_cases hk' : e.1 = k'
    · have hkk : ¬ k' = k := fun hh => he (hh ▸ hk')
      rw [if_pos hk', if_neg hkk, if_pos hk']
    · rw [if_neg hk', if_neg hk']

/-- `Dictionary::set` semantics as one lookup equation. -/
theorem dictGet_set (es : Dict) (k k' : String) (v : Object) :
    dictGet (dictSet es k v) k' = if k' = k then some v else dictGet es k' := by
  unfold dictSet
  cases hA : es.any (fun e => e.1 = k) with
  | true =>
    rw [if_pos rfl, dictGet_mapReplace]
    by_cases h : k' = k
    · rw [if_pos h, if_pos h]
      subst h
      rw [if_pos hA]
    · rw [if_neg h, if_neg h]
  | false =>
    rw [if_neg (by simp), dictGet_append_single es k k' v hA]

/-- The ancestor walk stops at once on an absent parent reference. -/
theorem countWalk_none (d : Document) (fuel : Nat) :
    countWalk d fuel none = d := by
  cases fuel <;> rfl

/-- One step of the ancestor walk on a present mapping with an integer
Count: decrement the Count in place and follow the mapping's own Parent
reference. -/
theorem countWalk_cons (d : Document) (f : Nat) (c : ObjectId) (es : Dict)
    (cnt : Int)
    (hl : tblLookup d.objects c = some (.dictionary es))
    (hcnt : dictGet es "Count" = some (.integer cnt)) :
    countWalk d (f + 1) (some c)
      = countWalk (Document.mk (tblInsert d.objects c
          (.dictionary (dictSet es "Count" (.integer (cnt - 1)))))
          d.trailer d.maxId) f
          ((dictGet es "Parent").bind Object.asReference) := by
  simp only [countWalk, hl, hcnt]
  rw [dictGet_set, if_neg (by decide)]

/-- The ancestor walk along a pinned chain: every identity on the chain —
each present as a mapping holding an integer Count, each pointing its
Parent reference at the next, the last lacking a parent reference — has its
Count decremented by exactly one, and no other identity's object changes. -/
theorem countWalk_chain (chain : List ObjectId) : ∀ (d : Document) (fuel : Nat),
    chain.length ≤ fuel → chain.Nodup →
    (∀ i (hi : i < chain.length), ∃ es c,
       tblLookup d.objects (chain.get ⟨i, hi⟩) = some (.dictionary es) ∧
       dictGet es "Count" = some (.integer c) ∧
       (dictGet es "Parent").bind Object.asReference
         = if h : i + 1 < chain.length then some (chain.get ⟨i + 1, h⟩)
           else none) →
    (∀ i (hi : i < chain.length), ∃ es c,
       tblLookup d.objects (chain.get ⟨i, hi⟩) = some (.dictionary es) ∧
       dictGet es "Count" = some (.integer c) ∧
       tblLookup (countWalk d fuel chain.head?).objects (chain.get ⟨i, hi⟩)
         = some (.dictionary (dictSet es "Count" (.integer (c - 1))))) ∧
    (∀ id, id ∉ chain →
       tblLookup (countWalk d fuel chain.head?).objects id
         = tblLookup d.objects id) := by
  induction chain with
  | nil =>
    intro d fuel _ _ _
    rw [List.head?_nil, countWalk_none]
    exact ⟨fun i hi => absurd hi (by simp), fun id _ => rfl⟩
  | cons c rest ih =>
    intro d fuel hfuel hnd H
    cases fuel with
    | zero => exact absurd hfuel (by simp)
    | succ f =>
    obtain ⟨es0, c0, hl0, hcnt0, hpar0⟩ := H 0 (by simp)
    have hl0' : tblLookup d.objects c = some (.dictionary es0) := hl0
    have hpar0' : (dictGet es0 "Parent").bind Object.asReference
        = rest.head? := by
      rw [hpar0]
      cases rest with
      | nil => rfl
      | cons c1 r2 => rw [dif_pos (by simp)]; rfl
    have hcnot : c ∉ rest := (List.nodup_cons.1 hnd).1
    have hndr : rest.Nodup := (List.nodup_cons.1 hnd).2
    have hstep : countWalk d (f + 1) (c :: rest).head?
        = countWalk (Document.mk (tblInsert d.objects c
            (.dictionary (dictSet es0 "Count" (.integer (c0 - 1)))))
            d.trailer d.maxId) f rest.head? := by
      rw [List.head?_cons, countWalk_cons d f c es0 c0 hl0' hcnt0, hpar0']
    have hlookd' : ∀ i (hi : i < rest.length),
        tblLookup (tblInsert d.objects c
            (.dictionary (dictSet es0 "Count" (.integer (c0 - 1)))))
          (rest.get ⟨i, hi⟩) = tblLookup d.objects (rest.get ⟨i, hi⟩) := by
      intro i hi
      rw [tblLookup_insert, if_neg]
      intro he
      exact hcnot (he ▸ List.get_mem rest i hi)
    have H' : ∀ i (hi : i < rest.length), ∃ es cc,
        tblLookup (Document.mk (tblInsert d.objects c
            (.dictionary (dictSet es0 "Count" (.integer (c0 - 1)))))
            d.trailer d.maxId).objects (rest.get ⟨i, hi⟩)
          = some (.dictionary es) ∧
        dictGet es "Count" = some (.integer cc) ∧
        (dictGet es "Parent").bind Object.asReference
          = if h : i + 1 < rest.length then some (rest.get ⟨i + 1, h⟩)
            else none := by
      intro i hi
      obtain ⟨es, cc, h1, h2, h3⟩ := H (i + 1) (by simpa using hi)
      have h1' : tblLookup d.objects (rest.get ⟨i, hi⟩)
          = some (.dictionary es) := h1
      refine ⟨es, cc, ?_, h2, ?_⟩
      · rw [hlookd' i hi]
        exact h1'
      · rw [h3]
        by_cases hcase : i + 1 < rest.length
        · rw [dif_pos (by simpa using Nat.succ_lt_succ hcase), dif_pos hcase]
          rfl
        · rw [dif_neg (by simpa using hcase), dif_neg hcase]
    obtain ⟨IH1, IH2⟩ := ih (Document.mk (tblInsert d.objects c
        (.dictionary (dictSet es0 "Count" (.integer (c0 - 1)))))
        d.trailer d.maxId) f (by simpa using hfuel) hndr H'
    constructor
    · intro i hi
      cases i with
      | zero =>
        refine ⟨es0, c0, hl0, hcnt0, ?_⟩
        show tblLookup (countWalk d (f + 1) (c :: rest).head?).objects c
          = some (.dictionary (dictSet es0 "Count" (.integer (c0 - 1))))
        rw [hstep, IH2 c hcnot]
        show tblLookup (tblInsert d.objects c
          (.dictionary (dictSet es0 "Count" (.integer (c0 - 1))))) c = _
        rw [tblLookup_insert, if_pos rfl]
      | succ i =>
        have hi' : i < rest.length := by simpa using hi
        obtain ⟨es, cc, h1, h2, h3⟩ := IH1 i hi'
        have h1' : tblLookup d.objects (rest.get ⟨i, hi'⟩)
            = some (.dictionary es) := by
          rw [← hlookd' i hi']
          exact h1
        refine ⟨es, cc, h1', h2, ?_⟩
        show tblLookup (countWalk d (f + 1) (c :: rest).head?).objects
          (rest.get ⟨i, hi'⟩)
          = some (.dictionary (dictSet es "Count" (.integer (cc - 1))))
        rw [hstep]
        exact h3
    · intro id hid
      have hid1 : id ≠ c := fun he => hid (he ▸ List.mem_cons_self c rest)
      have hid2 : id ∉ rest := fun hm => hid (List.mem_cons_of_mem c hm)
      rw [hstep, IH2 id hid2]
      show tblLookup (tblInsert d.objects c
        (.dictionary (dictSet es0 "Count" (.integer (c0 - 1))))) id = _
      rw [tblLookup_insert, if_neg hid1]

/-- Claim C5: deleting one leaf page through `delete_pages` — the leaf found
in the pre-built page index and present in the table, its former Parent
chain pinned as a duplicate-free list of mappings each holding an integer
Count and pointing its Parent reference at the next, the last lacking one —
decrements the integer Count by exactly one at every ancestor on the chain
and changes no object off the chain beyond the leaf deletion itself; a
requested page index absent from the index is skipped silently, returning
the document unchanged. -/
theorem claim_C5_delete_pages (doc : Document) (pn : Nat) (pid : ObjectId)
    (page : Object) (chain : List ObjectId)
    (hfind : ((doc.get_pages).find? (fun e => e.1 = pn)).map (fun e => e.2)
      = some pid)
    (hrem : (doc.delete_object pid).2 = some page)
    (hstart : ((page.asDict.bind (fun es => dictGet es "Parent")).bind
      Object.asReference) = chain.head?)
    (hlen : chain.length ≤ (doc.delete_object pid).1.objects.length + 1)
    (hnd : chain.Nodup)
    (H : ∀ i (hi : i < chain.length), ∃ es c,
       tblLookup (doc.delete_object pid).1.objects (chain.get ⟨i, hi⟩)
         = some (.dictionary es) ∧
       dictGet es "Count" = some (.integer c) ∧
       (dictGet es "Parent").bind Object.asReference
         = if h : i + 1 < chain.length then some (chain.get ⟨i + 1, h⟩)
           else none) :
    (∀ i (hi : i < chain.length), ∃ es c,
       tblLookup (doc.delete_object pid).1.objects (chain.get ⟨i, hi⟩)
         = some (.dictionary es) ∧
       dictGet es "Count" = some (.integer c) ∧
       tblLookup (doc.delete_pages [pn]).objects (chain.get ⟨i, hi⟩)
         = some (.dictionary (dictSet es "Count" (.integer (c - 1))))) ∧
    (∀ id, id ∉ chain →
       tblLookup (doc.delete_pages [pn]).objects id
         = tblLookup (doc.delete_object pid).1.objects id) ∧
    (∀ pn', ((doc.get_pages).find? (fun e => e.1 = pn')).map (fun e => e.2)
        = none →
      doc.delete_pages [pn'] = doc) := by
  have hred : doc.delete_pages [pn]
      = countWalk (doc.delete_object pid).1
          ((doc.delete_object pid).1.objects.length + 1) chain.head? := by
    unfold Document.delete_pages
    simp only [List.foldl, hfind, hrem, hstart]
  obtain ⟨W1, W2⟩ := countWalk_chain chain (doc.delete_object pid).1
    ((doc.delete_object pid).1.objects.length + 1) hlen hnd H
  refine ⟨?_, ?_, ?_⟩
  · intro i hi
    obtain ⟨es, cc, h1, h2, h3⟩ := W1 i hi
    refine ⟨es, cc, h1, h2, ?_⟩
    rw [hred]
    exact h3
  · intro id hid
    rw [hred]
    exact W2 id hid
  · intro pn' hnone
    unfold Document.delete_pages
    simp only [List.foldl, hnone]

/-- Claim C5 (witness): a three-object page tree — catalog, one page-tree
root with Count 1, one leaf — deleting page 1 and skipping absent page 5. -/
theorem claim_C5_witness :
    tblLookup ((Document.mk
      [((1,0), .dictionary [("Type", .name "Catalog"),
          ("Pages", .reference (2,0))]),
       ((2,0), .dictionary [("Type", .name "Pages"),
          ("Kids", .array [.reference (3,0)]), ("Count", .integer 1)]),
       ((3,0), .dictionary [("Type", .name "Page"),
          ("Parent", .reference (2,0))])]
      [("Root", .reference (1,0))] 3).delete_pages [1]).objects (2,0)
      = some (.dictionary [("Type", .name "Pages"), ("Kids", .array []),
          ("Count", .integer 0)]) ∧
    (Document.mk
      [((1,0), .dictionary [("Type", .name "Catalog"),
          ("Pages", .reference (2,0))]),
       ((2,0), .dictionary [("Type", .name "Pages"),
          ("Kids", .array [.reference (3,0)]), ("Count", .integer 1)]),
       ((3,0), .dictionary [("Type", .name "Page"),
          ("Parent", .reference (2,0))])]
      [("Root", .reference (1,0))] 3).delete_pages [5]
      = Document.mk
        [((1,0), .dictionary [("Type", .name "Catalog"),
            ("Pages", .reference (2,0))]),
         ((2,0), .dictionary [("Type", .name "Pages"),
            ("Kids", .array [.reference (3,0)]), ("Count", .integer 1)]),
         ((3,0), .dictionary [("Type", .name "Page"),
            ("Parent", .reference (2,0))])]
        [("Root", .reference (1,0))] 3 :=
  ⟨by decide,
   (claim_C5_delete_pages (Document.mk
      [((1,0), .dictionary [("Type", .name "Catalog"),
          ("Pages", .reference (2,0))]),
       ((2,0), .dictionary [("Type", .name "Pages"),
          ("Kids", .array [.reference (3,0)]), ("Count", .integer 1)]),
       ((3,0), .dictionary [("Type", .name "Page"),
          ("Parent", .reference (2,0))])]
      [("Root", .reference (1,0))] 3) 1 (3,0)
      (.dictionary [("Type", .name "Page"), ("Parent", .reference (2,0))])
      [(2,0)]
      (by decide) (by decide) (by decide) (by decide) (by decide)
      (by
        intro i hi
        cases i with
        | zero =>
          have hg : (([((2:Nat), (0:Nat))]) : List ObjectId).get ⟨0, hi⟩
              = ((2:Nat), (0:Nat)) := rfl
          rw [hg]
          exact ⟨[("Type", Object.name "Pages"), ("Kids", Object.array []),
            ("Count", Object.integer 1)], 1, by decide, by decide, by decide⟩
        | succ n =>
          have hl1 : (([((2:Nat), (0:Nat))]) : List ObjectId).length = 1 := rfl
          rw [hl1] at hi
          exact absurd hi (by omega))).2.2 5 (by decide)⟩

/-- Claim C8: when the source file cannot be opened or read,
`add_attachment` surfaces the I/O error carrying the path unmodified, and
performs no rollback: on a catalog without a Names entry, the two objects
minted before the failing read — the Names/EmbeddedFiles mapping under
identity (maxId+2, 0) and the empty name sequence under (maxId+1, 0) —
remain in the table, the counter stays advanced by two, every pre-existing
object is untouched, and the trailer is unchanged. -/
theorem claim_C8_add_attachment (doc : Document) (path : String)
    (fs : String → Option (List Nat)) (cat : Dict) (nm : String)
    (hcat : doc.catalogOf = some cat)
    (hnames : dictGet cat "Names" = none)
    (hbase : baseName path = some nm)
    (hfs : fs path = none)
    (hlt : doc.maxId + 2 < u32Mod) :
    doc.add_attachment path fs
      = .failed (.ioError path)
          (Document.mk
            (tblInsert (tblInsert doc.objects (doc.maxId + 2, 0)
                (.dictionary [("EmbeddedFiles",
                  .dictionary [("Names", .reference (doc.maxId + 1, 0))])]))
              (doc.maxId + 1, 0) (.array []))
            doc.trailer
            (doc.maxId + 2)) ∧
    (∀ id, id ≠ (doc.maxId + 1, 0) → id ≠ (doc.maxId + 2, 0) →
      tblLookup (tblInsert (tblInsert doc.objects (doc.maxId + 2, 0)
          (.dictionary [("EmbeddedFiles",
            .dictionary [("Names", .reference (doc.maxId + 1, 0))])]))
        (doc.maxId + 1, 0) (.array [])) id = tblLookup doc.objects id) := by
  have hm1 : (doc.maxId + 1) % u32Mod = doc.maxId + 1 :=
    Nat.mod_eq_of_lt (by omega)
  have hm2 : (doc.maxId + 1 + 1) % u32Mod = doc.maxId + 2 := by
    have h := Nat.mod_eq_of_lt (show doc.maxId + 1 + 1 < u32Mod by omega)
    omega
  have hne : ((doc.maxId + 2, 0) : ObjectId) ≠ (doc.maxId + 1, 0) := by
    simp
  have hlook2 : tblLookup (tblInsert (tblInsert doc.objects
      (doc.maxId + 2, 0) (.dictionary [("EmbeddedFiles",
        .dictionary [("Names", .reference (doc.maxId + 1, 0))])]))
      (doc.maxId + 1, 0) (.array [])) (doc.maxId + 2, 0)
      = some (.dictionary [("EmbeddedFiles",
          .dictionary [("Names", .reference (doc.maxId + 1, 0))])]) := by
    rw [tblLookup_insert, if_neg hne, tblLookup_insert, if_pos rfl]
  have hlook1 : tblLookup (tblInsert (tblInsert doc.objects
      (doc.maxId + 2, 0) (.dictionary [("EmbeddedFiles",
        .dictionary [("Names", .reference (doc.maxId + 1, 0))])]))
      (doc.maxId + 1, 0) (.array [])) (doc.maxId + 1, 0)
      = some (.array []) := by
    rw [tblLookup_insert, if_pos rfl]
  have hg1 : dictGet [("EmbeddedFiles", Object.dictionary
      [("Names", Object.reference (doc.maxId + 1, 0))])] "EmbeddedFiles"
      = some (.dictionary [("Names", .reference (doc.maxId + 1, 0))]) := rfl
  have hg2 : dictGet [("Names", Object.reference (doc.maxId + 1, 0))] "Names"
      = some (.reference (doc.maxId + 1, 0)) := rfl
  constructor
  · unfold Document.add_attachment
    simp only [Id.run, hcat, hnames, Document.new_object_id,
      Document.add_object, hm1, hm2, hlook2, hlook1, Object.asDict, hg1, hg2,
      Object.asArray, Option.bind, hbase, hfs]
    rfl
  · intro id hid1 hid2
    rw [tblLookup_insert, if_neg hid1, tblLookup_insert, if_neg hid2]

/-- Claim C8 (witness): an empty-catalog document, a path the modelled file
system cannot read. -/
theorem claim_C8_witness :
    (Document.mk [((1,0), .dictionary [])] [("Root", .reference (1,0))]
      1).add_attachment "f.txt" (fun _ => none)
      = .failed (.ioError "f.txt")
          (Document.mk
            (tblInsert (tblInsert [((1,0), .dictionary [])] (3, 0)
                (.dictionary [("EmbeddedFiles",
                  .dictionary [("Names", .reference (2, 0))])]))
              (2, 0) (.array []))
            [("Root", .reference (1,0))] 3) :=
  (claim_C8_add_attachment
    (Document.mk [((1,0), .dictionary [])] [("Root", .reference (1,0))] 1)
    "f.txt" (fun _ => none) [] "f.txt"
    (by decide) (by decide) (by decide) rfl (by decide)).1

end Lopdf